import Mathlib

/-!
Verification of the certificate-hierarchy and certificate-wrapper core of an
EVSE security library.

The development shallowly embeds:

* `X509Wrapper` (src/lib/evse_security/certificate/x509_wrapper.cpp):
  a value wrapping one parsed certificate plus a cached validity window.
* `X509CertificateHierarchy` (src/lib/evse_security/certificate/x509_hierarchy.cpp):
  `insert`, `prune`, `build_hierarchy`, `get_certificate_hash`.

The crypto provider (certificate parsing, `x509_is_child`,
`x509_is_selfsigned`, hashes) is an external collaborator: its
implementation is not part of the embedded sources.  It is modelled here
concretely, following the spec's data model and the documented OpenSSL
`X509_check_issued` semantics: a certificate carries a subject name, an
issuer name, a subject-key identifier and a serial; `is_child c p` holds
iff `c`'s issuer name equals `p`'s subject name, and a certificate is
self-signed iff its issuer name equals its own subject name.
-/

set_option autoImplicit false

namespace EvseSecurity

/-- Hash algorithms (types.hpp); this system always uses SHA256. -/
inductive HashAlgorithm where
  | SHA256
  | SHA384
  | SHA512
deriving DecidableEq, Repr

/-- Modelled from the spec: the parsed-certificate value exposed by the
external crypto provider (not under src/): subject distinguished name,
issuer distinguished name, subject public key, serial number, each
abstracted to a natural number (hashes of distinct data are modelled as
distinct numbers). -/
structure Cert where
  subject : Nat
  issuer : Nat
  key : Nat
  serial : Nat
deriving DecidableEq, Repr

/-- Modelled from the spec: the provider's `x509_is_child` ("is_child is
provider-defined"), with the OpenSSL `X509_check_issued` semantics of
matching the child's issuer name against the candidate parent's subject
name. -/
def ischild (c p : Cert) : Bool :=
  c.issuer == p.subject

/-- Modelled from the spec: the provider's `x509_is_selfsigned`: the
certificate is issued by itself, i.e. its issuer name matches its own
subject name. -/
def sfCert (c : Cert) : Bool :=
  c.issuer == c.subject

/-- `CertificateHashData` (types.hpp): `(hash-algorithm, issuer-name-hash,
issuer-key-hash, serial-number)`. -/
structure CertificateHashData where
  hash_algorithm : HashAlgorithm
  issuer_name_hash : Nat
  issuer_key_hash : Nat
  serial_number : Nat
deriving DecidableEq, Repr

/-- `X509Wrapper::get_certificate_hash_data()` (self-issuer form,
x509_wrapper.cpp:166-178): SHA256, own issuer-name hash, own key hash as
issuer-key hash (legal only for self-signed certificates, cf.
`get_issuer_key_hash`), own serial. -/
def certHashDataSelf (c : Cert) : CertificateHashData :=
  ⟨HashAlgorithm.SHA256, c.issuer, c.key, c.serial⟩

/-- `X509Wrapper::get_certificate_hash_data(issuer)`
(x509_wrapper.cpp:180-203): SHA256, own issuer-name hash, the issuer's
subject-key hash, own serial.  The C++ first checks
`x509_is_child(this, issuer)` and throws otherwise; every hierarchy call
site establishes that guard, so the embedding is total. -/
def certHashDataIssuer (c issuer : Cert) : CertificateHashData :=
  ⟨HashAlgorithm.SHA256, c.issuer, issuer.key, c.serial⟩

/-! ## X509Wrapper -/

/-- `X509Wrapper` (x509_wrapper.cpp): one parsed certificate plus the
cached validity window filled by the provider's `x509_get_validity`.
`addr` models the C++ object identity (`this` pointer), which
`operator==` and `is_child` compare before delegating to the provider. -/
structure X509Wrapper where
  addr : Nat
  cert : Cert
  valid_in : Int
  valid_to : Int
deriving DecidableEq, Repr

namespace X509Wrapper

/-- `X509Wrapper::is_child` (x509_wrapper.cpp:92-98): a certificate can't
be its own parent — same object compares false — otherwise the check is
delegated to the provider's `x509_is_child`. -/
def is_child (self parent : X509Wrapper) : Bool :=
  if self.addr == parent.addr then false
  else ischild self.cert parent.cert

/-- `X509Wrapper::is_selfsigned` (x509_wrapper.cpp:100-102). -/
def is_selfsigned (self : X509Wrapper) : Bool :=
  sfCert self.cert

/-- `X509Wrapper::get_valid_in` (x509_wrapper.cpp:104-106). -/
def get_valid_in (self : X509Wrapper) : Int := self.valid_in

/-- `X509Wrapper::get_valid_to` (x509_wrapper.cpp:109-111). -/
def get_valid_to (self : X509Wrapper) : Int := self.valid_to

/-- `X509Wrapper::is_valid` (x509_wrapper.cpp:113-116): the valid_in must
be in the past and the valid_to must be in the future. -/
def is_valid (self : X509Wrapper) : Bool :=
  decide (self.get_valid_in ≤ 0) && decide (self.get_valid_to ≥ 0)

/-- `X509Wrapper::is_expired` (x509_wrapper.cpp:118-120). -/
def is_expired (self : X509Wrapper) : Bool :=
  decide (self.get_valid_to < 0)

/-- `X509Wrapper::get_key_hash` (x509_wrapper.cpp:162-164): hash of this
certificate's subject public key, via the provider. -/
def get_key_hash (self : X509Wrapper) : Nat := self.cert.key

/-- Errors thrown by the wrapper. -/
inductive WrapperError where
  | CertificateLoadError
  | LogicError
deriving DecidableEq, Repr

/-- `X509Wrapper::get_issuer_key_hash` (x509_wrapper.cpp:153-160):
returns `get_key_hash()` when self-signed, otherwise throws
`std::logic_error` ("must only be used on self-signed certs"). -/
def get_issuer_key_hash (self : X509Wrapper) : Except WrapperError Nat :=
  if self.is_selfsigned then Except.ok self.get_key_hash
  else Except.error WrapperError.LogicError

/-- `X509Wrapper::X509Wrapper(const std::string&, EncodingFormat)`
(x509_wrapper.cpp:37-48).  The provider's `load_certificates` (external)
parses the string into a list of certificates, taken here as the
argument `loaded`; the constructor requires exactly one certificate and
throws `CertificateLoadException` otherwise.  `addr`/`vin`/`vto` supply
the fresh object identity and the validity window the constructor reads
through `update_validity`. -/
def fromData (addr : Nat) (loaded : List Cert) (vin vto : Int) :
    Except WrapperError X509Wrapper :=
  match loaded with
  | [c] => Except.ok ⟨addr, c, vin, vto⟩
  | _ => Except.error WrapperError.CertificateLoadError

end X509Wrapper

/-! ## X509CertificateHierarchy

The hierarchy algorithms (x509_hierarchy.cpp) operate on certificate
*values*; every wrapper stored in a node is a distinct C++ object, so the
wrapper-level `is_child` reduces to the provider check everywhere except
where the code compares a node against itself (noted at the one place in
`prune` where that occurs). -/

/-- Node state bitfield of `X509Node` (hierarchy header; layout as used by
x509_hierarchy.cpp and described by the spec: flags `is_self_signed` and
`is_permanent_orphan`). -/
structure NodeState where
  is_selfsigned : Nat
  is_orphan : Nat
deriving DecidableEq, Repr

/-- `X509Node` (hierarchy header, fields as used by x509_hierarchy.cpp and
the spec's data model): state flags, the certificate, an optional
issuer-bound hash, the issuer certificate, and the ordered child list. -/
inductive X509Node where
  | mk (state : NodeState) (certificate : Cert) (hash : Option CertificateHashData)
      (issuer : Cert) (children : List X509Node)
deriving Repr

namespace X509Node

def state : X509Node → NodeState
  | mk st _ _ _ _ => st

def certificate : X509Node → Cert
  | mk _ c _ _ _ => c

def hash : X509Node → Option CertificateHashData
  | mk _ _ h _ _ => h

def issuer : X509Node → Cert
  | mk _ _ _ i _ => i

def children : X509Node → List X509Node
  | mk _ _ _ _ ch => ch

end X509Node

/-- Errors of the hierarchy builder: `InvalidStateException` for the
sanity-check throws, and `selfMove` for the one place where the C++ would
move a root into its own descendant's child list (prune's re-parenting;
undefined behaviour in C++, surfaced as an explicit error here). -/
inductive HErr where
  | invalidState
  | selfMove
deriving DecidableEq, Repr

/-- The candidate child node built at the top of
`X509CertificateHierarchy::insert` (x509_hierarchy.cpp:232): not
self-signed, not an orphan, no hash, issuer set to the certificate
itself. -/
def newOrphanNode (c : Cert) : X509Node :=
  X509Node.mk ⟨0, 0⟩ c none c []

/-- The walk of `insert` for a non-self-signed certificate
(x509_hierarchy.cpp:235-278): visit every node of the forest (modelled
from the spec as a pre-order walk, "walk the current forest"); at the
first node `top` linked to the inserted certificate either re-parent
`top` under a new node for `c` (when `top` is a child of `c`; sanity
checks: `top` must not be self-signed and must not carry a hash) or
append `c` as a child of `top` (when `c` is a child of `top`).  Returns
`none` when no link is found. -/
def insertWalk (c : Cert) : List X509Node → Except HErr (Option (List X509Node))
  | [] => Except.ok none
  | X509Node.mk st cert h iss ch :: rest =>
    if ischild cert c then
      -- the inserted certificate is the parent of this node
      if st.is_selfsigned != 0 then Except.error HErr.invalidState
      else if h.isSome then Except.error HErr.invalidState
      else
        Except.ok (some (X509Node.mk ⟨0, 0⟩ c none c
          [X509Node.mk ⟨0, 0⟩ cert (some (certHashDataIssuer cert c)) c ch] :: rest))
    else if ischild c cert then
      -- the inserted certificate is a child of this node
      Except.ok (some (X509Node.mk st cert h iss
        (ch ++ [X509Node.mk ⟨0, 0⟩ c (some (certHashDataIssuer c cert)) cert []]) :: rest))
    else
      match insertWalk c ch with
      | Except.ok (some ch') => Except.ok (some (X509Node.mk st cert h iss ch' :: rest))
      | Except.ok none =>
        match insertWalk c rest with
        | Except.ok (some rest') => Except.ok (some (X509Node.mk st cert h iss ch :: rest'))
        | Except.ok none => Except.ok none
        | Except.error e => Except.error e
      | Except.error e => Except.error e

/-- The partial prune performed when a self-signed certificate is
inserted (x509_hierarchy.cpp:293-322): every non-self-signed root
(sanity check: it must not carry a hash) that is a child of the new root
certificate is moved, in order, into the new root's child list; the
rest keep their positions.  Returns (kept roots, moved nodes). -/
def partialPrune (c : Cert) : List X509Node → Except HErr (List X509Node × List X509Node)
  | [] => Except.ok ([], [])
  | n :: rest =>
    if n.state.is_selfsigned == 0 then
      if n.hash.isSome then Except.error HErr.invalidState
      else if ischild n.certificate c then
        match partialPrune c rest with
        | Except.ok (kept, moved) =>
          Except.ok (kept,
            X509Node.mk ⟨n.state.is_selfsigned, 0⟩ n.certificate
              (some (certHashDataIssuer n.certificate c)) c n.children :: moved)
        | Except.error e => Except.error e
      else
        match partialPrune c rest with
        | Except.ok (kept, moved) => Except.ok (n :: kept, moved)
        | Except.error e => Except.error e
    else
      match partialPrune c rest with
      | Except.ok (kept, moved) => Except.ok (n :: kept, moved)
      | Except.error e => Except.error e

/-- `X509CertificateHierarchy::insert` (x509_hierarchy.cpp:226-324). -/
def insert (c : Cert) (hierarchy : List X509Node) : Except HErr (List X509Node) :=
  if sfCert c = false then
    match insertWalk c hierarchy with
    | Except.ok (some h') => Except.ok h'
    | Except.ok none => Except.ok (hierarchy ++ [newOrphanNode c])
    | Except.error e => Except.error e
  else
    match partialPrune c hierarchy with
    | Except.ok (kept, moved) =>
      Except.ok (kept ++ [X509Node.mk ⟨1, 0⟩ c (some (certHashDataSelf c)) c moved])
    | Except.error e => Except.error e

/-- The search of `prune` for one orphan (x509_hierarchy.cpp:341-352):
walk the forest and attach the orphan — with recomputed hash, cleared
orphan flag and updated issuer — as a child of the first node the orphan
is a child of.  Returns the updated forest, or `none` when no issuer is
found. -/
def attachWalk (orph : X509Node) : List X509Node → Option (List X509Node)
  | [] => none
  | X509Node.mk st cert h iss ch :: rest =>
    if ischild orph.certificate cert then
      some (X509Node.mk st cert h iss
        (ch ++
          [X509Node.mk ⟨orph.state.is_selfsigned, 0⟩ orph.certificate
            (some (certHashDataIssuer orph.certificate cert))
            cert orph.children]) :: rest)
    else
      match attachWalk orph ch with
      | some ch' => some (X509Node.mk st cert h iss ch' :: rest)
      | none =>
        match attachWalk orph rest with
        | some rest' => some (X509Node.mk st cert h iss ch :: rest')
        | none => none

/-- The loop of `X509CertificateHierarchy::prune`
(x509_hierarchy.cpp:330-362), written with the processed prefix `done`
and the unprocessed suffix `rest` of the root list.  For each root that
is neither self-signed nor already a permanent orphan, the forest is
searched for an issuer: the orphan's own slot never matches itself (the
wrapper's `is_child` compares object identity first), a match inside the
orphan's own subtree would make the C++ move a root into its own
descendant (`selfMove`), a match anywhere else re-parents the orphan and
removes it from the roots; with no match the root is marked a permanent
orphan.  `fuel` counts the unprocessed roots: re-parenting keeps the
length of `rest` unchanged (see `attachWalk_length`), so the fuel is
exact and the fallback arms are unreachable. -/
def pruneGo : Nat → List X509Node → List X509Node → Except HErr (List X509Node)
  | _, done, [] => Except.ok done
  | 0, done, rest => Except.ok (done ++ rest)
  | fuel + 1, done, r :: rest =>
    if r.state.is_selfsigned == 0 && r.state.is_orphan == 0 then
      match attachWalk r done with
      | some done' => pruneGo fuel done' rest
      | none =>
        if (attachWalk r r.children).isSome then Except.error HErr.selfMove
        else
          match attachWalk r rest with
          | some rest' => pruneGo fuel done rest'
          | none =>
            pruneGo fuel
              (done ++ [X509Node.mk ⟨r.state.is_selfsigned, 1⟩ r.certificate r.hash
                r.issuer r.children]) rest
    else pruneGo fuel (done ++ [r]) rest

/-- `X509CertificateHierarchy::prune` (x509_hierarchy.cpp:326-363):
returns immediately when the root list has at most one entry. -/
def prune (hierarchy : List X509Node) : Except HErr (List X509Node) :=
  if hierarchy.length ≤ 1 then Except.ok hierarchy
  else pruneGo hierarchy.length [] hierarchy

/-- The consuming loop of `build_hierarchy` (x509_hierarchy.cpp:368-371):
while the vector is non-empty, move its back into `insert` and pop it.
A C++ exception from `insert` propagates before the pop, leaving the
vector as it was at the start of that iteration.  The fuel is the vector
length, decremented in lockstep with `dropLast`. -/
def buildLoop : Nat → List X509Node → List Cert → Except HErr (List X509Node) × List Cert
  | 0, h, v => (Except.ok h, v)
  | fuel + 1, h, v =>
    match v.getLast? with
    | none => (Except.ok h, v)
    | some c =>
      match insert c h with
      | Except.ok h' => buildLoop fuel h' v.dropLast
      | Except.error e => (Except.error e, v)

/-- `X509CertificateHierarchy::build_hierarchy` (x509_hierarchy.cpp:
365-377): consume the caller's vector back-to-front into `insert`, then
prune.  Returns the built hierarchy (or the propagated error) together
with the final state of the caller's vector. -/
def buildHierarchy (certificates : List Cert) :
    Except HErr (List X509Node) × List Cert :=
  match buildLoop certificates.length [] certificates with
  | (Except.ok h, v') => (prune h, v')
  | (Except.error e, v') => (Except.error e, v')

/-- Sequential insertion in front-to-back order of the given list; the
reference point for stating in which order `build_hierarchy` consumes
its input. -/
def insertSeq (l : List Cert) : Except HErr (List X509Node) :=
  l.foldlM (fun h c => insert c h) []

/-! ### Forest observations -/

/-- All nodes of a forest (roots and descendants, pre-order). -/
def allNodes : List X509Node → List X509Node
  | [] => []
  | X509Node.mk st c h i ch :: rest =>
    X509Node.mk st c h i ch :: (allNodes ch ++ allNodes rest)

/-- All child-parent node pairs of a forest. -/
def famPairs : List X509Node → List (X509Node × X509Node)
  | [] => []
  | X509Node.mk st c h i ch :: rest =>
    ch.map (fun n => (n, X509Node.mk st c h i ch)) ++ (famPairs ch ++ famPairs rest)

/-- The certificates stored in a forest. -/
def forestCerts (f : List X509Node) : List Cert :=
  (allNodes f).map X509Node.certificate

/-- The parent-child relation of a forest, as (child certificate, parent
certificate) pairs. -/
def forestEdges (f : List X509Node) : List (Cert × Cert) :=
  (famPairs f).map (fun q => (q.1.certificate, q.2.certificate))

/-- The certificates at the top level (the roots). -/
def rootCerts (f : List X509Node) : List Cert :=
  f.map X509Node.certificate

/-- The search of `X509CertificateHierarchy::get_certificate_hash`
(x509_hierarchy.cpp:77-86): the first node (in the walk's order) holding
this certificate together with a computed hash. -/
def findStoredHash (c : Cert) : List X509Node → Option CertificateHashData
  | [] => none
  | X509Node.mk _ cert h _ ch :: rest =>
    if cert == c && h.isSome then h
    else
      match findStoredHash c ch with
      | some hd => some hd
      | none => findStoredHash c rest

/-- `X509CertificateHierarchy::get_certificate_hash`
(x509_hierarchy.cpp:67-95).  The C++ declares `CertificateHashData hash;
bool found;` without initializing `found` and reads it when the search
never matched; the embedding makes the two indeterminate initial values
explicit as `found0` and `hash0`, and the caller's output argument as
`out0` (returned unchanged on the `false` path). -/
def get_certificate_hash (hierarchy : List X509Node) (c : Cert)
    (found0 : Bool) (hash0 out0 : CertificateHashData) : Bool × CertificateHashData :=
  if sfCert c then (true, certHashDataSelf c)
  else
    match findStoredHash c hierarchy with
    | some hd => (true, hd)
    | none => if found0 then (true, hash0) else (false, out0)

/-- Decidable equality for `Except` results, used to evaluate the
embedded functions on concrete inputs inside closed theorems. -/
instance {e a : Type} [DecidableEq e] [DecidableEq a] : DecidableEq (Except e a) := fun x y =>
  match x, y with
  | Except.ok u, Except.ok v =>
    if h : u = v then isTrue (by rw [h]) else isFalse (by simp [h])
  | Except.ok _, Except.error _ => isFalse (by simp)
  | Except.error _, Except.ok _ => isFalse (by simp)
  | Except.error u, Except.error v =>
    if h : u = v then isTrue (by rw [h]) else isFalse (by simp [h])

/-! ### Invariants -/

/-- The top-level fields of a node (everything but the child list). -/
def topSig (n : X509Node) : NodeState × Cert × Option CertificateHashData × Cert :=
  (n.state, n.certificate, n.hash, n.issuer)

/-- Discipline of a non-root node relative to its parent's certificate:
cleared state flags, not self-signed, issuer reference and issuer-bound
hash pointing at the parent, and the provider's parent-child relation. -/
def ChildOK (p : Cert) (n : X509Node) : Prop :=
  n.state = ⟨0, 0⟩ ∧
  sfCert n.certificate = false ∧
  n.issuer = p ∧
  n.hash = some (certHashDataIssuer n.certificate p) ∧
  ischild n.certificate p = true

/-- Every child-parent pair of the forest is disciplined. -/
def FamOK (f : List X509Node) : Prop :=
  ∀ q ∈ famPairs f, ChildOK q.2.certificate q.1

/-- Discipline of a top-level root as established by `insert`: a
self-signed root carries the flag, its self hash and itself as issuer; a
non-self-signed root is an unmarked orphan with no hash. -/
def RootOK (n : X509Node) : Prop :=
  (sfCert n.certificate = true →
    n.state = ⟨1, 0⟩ ∧ n.hash = some (certHashDataSelf n.certificate) ∧
    n.issuer = n.certificate) ∧
  (sfCert n.certificate = false →
    n.state = ⟨0, 0⟩ ∧ n.hash = none ∧ n.issuer = n.certificate)

/-- Discipline of a top-level root after `prune`: as `RootOK`, except
that a non-self-signed root may now carry the permanent-orphan mark. -/
def RootOKP (n : X509Node) : Prop :=
  (sfCert n.certificate = true →
    n.state = ⟨1, 0⟩ ∧ n.hash = some (certHashDataSelf n.certificate) ∧
    n.issuer = n.certificate) ∧
  (sfCert n.certificate = false →
    (n.state = ⟨0, 0⟩ ∨ n.state = ⟨0, 1⟩) ∧ n.hash = none ∧
    n.issuer = n.certificate)

/-- Invariant of the insertion phase: disciplined families and roots. -/
def InsOK (f : List X509Node) : Prop :=
  FamOK f ∧ ∀ r ∈ f, RootOK r

/-- Discipline of a processed root after its prune pass, relative to the
certificate multiset `S0` of the whole forest: either a self-signed root
with its fields, or a marked permanent orphan that no certificate of the
forest issues. -/
def DoneRoot (S0 : List Cert) (r : X509Node) : Prop :=
  (sfCert r.certificate = true ∧ r.state = ⟨1, 0⟩ ∧
    r.hash = some (certHashDataSelf r.certificate) ∧ r.issuer = r.certificate) ∨
  (sfCert r.certificate = false ∧ r.state = ⟨0, 1⟩ ∧ r.hash = none ∧
    r.issuer = r.certificate ∧ ∀ p ∈ S0, ischild r.certificate p = false)

/-! ### Concrete certificates used by the counterexamples -/

/-- A self-signed root: subject and issuer name both `0`. -/
def rootCA : Cert := ⟨0, 0, 1, 1⟩

/-- A cross-signed sibling of `rootCA`: same subject name `0`, issued by
an outside authority `5`.  Individually a perfectly well-formed
certificate. -/
def crossSigned : Cert := ⟨0, 5, 9, 9⟩

/-- An intermediate with subject `0` issued by the absent authority `7`. -/
def midA : Cert := ⟨0, 7, 1, 1⟩

/-- A second intermediate with the same subject `0` (a cross-signed copy
of `midA`), issued by the absent authority `8`. -/
def midB : Cert := ⟨0, 8, 2, 2⟩

/-- A leaf issued by subject name `0`, i.e. by `midA` as well as `midB`. -/
def leafC : Cert := ⟨5, 0, 3, 3⟩

/-- A lone non-self-signed certificate (issuer name `2` absent). -/
def loneCert : Cert := ⟨1, 2, 0, 0⟩

/-- A second lone non-self-signed certificate (issuer name `4` absent),
unrelated to `loneCert`. -/
def loneCertB : Cert := ⟨3, 4, 1, 1⟩

/-- The node built for `leafC` once attached under `rootCA`. -/
def leafNodeC : X509Node :=
  X509Node.mk ⟨0, 0⟩ leafC (some (certHashDataIssuer leafC rootCA)) rootCA []

/-- The root node built for `rootCA` with `leafNodeC` attached. -/
def rootNodeCA : X509Node :=
  X509Node.mk ⟨1, 0⟩ rootCA (some (certHashDataSelf rootCA)) rootCA [leafNodeC]


/-! ## Theorems -/

namespace X509Node

@[simp] theorem state_mk (st c h i ch) : (mk st c h i ch).state = st := rfl
@[simp] theorem certificate_mk (st c h i ch) : (mk st c h i ch).certificate = c := rfl
@[simp] theorem hash_mk (st c h i ch) : (mk st c h i ch).hash = h := rfl
@[simp] theorem issuer_mk (st c h i ch) : (mk st c h i ch).issuer = i := rfl
@[simp] theorem children_mk (st c h i ch) : (mk st c h i ch).children = ch := rfl

end X509Node

/-! ### Forest lemmas -/

theorem allNodes_append (a b : List X509Node) :
    allNodes (a ++ b) = allNodes a ++ allNodes b := by
  induction a using allNodes.induct with
  | case1 => simp [allNodes]
  | case2 st c h i ch rest ih1 ih2 =>
    simp [allNodes, ih2]

theorem famPairs_append (a b : List X509Node) :
    famPairs (a ++ b) = famPairs a ++ famPairs b := by
  induction a using famPairs.induct with
  | case1 => simp [famPairs]
  | case2 st c h i ch rest ih1 ih2 =>
    simp [famPairs, ih2]

theorem forestCerts_nil : forestCerts [] = [] := by
  simp [forestCerts, allNodes]

theorem forestCerts_cons (st c h i ch rest) :
    forestCerts (X509Node.mk st c h i ch :: rest) =
      c :: (forestCerts ch ++ forestCerts rest) := by
  simp [forestCerts, allNodes]

theorem forestCerts_append (a b : List X509Node) :
    forestCerts (a ++ b) = forestCerts a ++ forestCerts b := by
  simp [forestCerts, allNodes_append]

theorem forestEdges_nil : forestEdges [] = [] := by
  simp [forestEdges, famPairs]

theorem forestEdges_cons (st c h i ch rest) :
    forestEdges (X509Node.mk st c h i ch :: rest) =
      ch.map (fun x => (x.certificate, c)) ++ (forestEdges ch ++ forestEdges rest) := by
  simp [forestEdges, famPairs, List.map_map]

theorem forestEdges_append (a b : List X509Node) :
    forestEdges (a ++ b) = forestEdges a ++ forestEdges b := by
  simp [forestEdges, famPairs_append]

theorem famPairs_cons (st c h i ch rest) :
    famPairs (X509Node.mk st c h i ch :: rest) =
      ch.map (fun n => (n, X509Node.mk st c h i ch)) ++ (famPairs ch ++ famPairs rest) := by
  simp [famPairs]

theorem topSig_fields {m n : X509Node} (h : topSig m = topSig n) :
    m.state = n.state ∧ m.certificate = n.certificate ∧
      m.hash = n.hash ∧ m.issuer = n.issuer :=
  ⟨congrArg Prod.fst h, congrArg (fun q => q.2.1) h,
    congrArg (fun q => q.2.2.1) h, congrArg (fun q => q.2.2.2) h⟩

theorem ChildOK_of_topSig {p : Cert} {m n : X509Node} (hs : topSig m = topSig n)
    (h : ChildOK p n) : ChildOK p m := by
  obtain ⟨h1, h2, h3, h4⟩ := topSig_fields hs
  unfold ChildOK at h ⊢
  rw [h1, h2, h3, h4]
  exact h

theorem RootOK_of_topSig {m n : X509Node} (hs : topSig m = topSig n)
    (h : RootOK n) : RootOK m := by
  obtain ⟨h1, h2, h3, h4⟩ := topSig_fields hs
  unfold RootOK at h ⊢
  rw [h1, h2, h3, h4]
  exact h

theorem FamOK_append (a b : List X509Node) :
    FamOK (a ++ b) ↔ FamOK a ∧ FamOK b := by
  unfold FamOK
  rw [famPairs_append, List.forall_mem_append]

theorem FamOK_cons (st c h i ch rest) :
    FamOK (X509Node.mk st c h i ch :: rest) ↔
      (∀ x ∈ ch, ChildOK c x) ∧ FamOK ch ∧ FamOK rest := by
  unfold FamOK
  rw [famPairs_cons, List.forall_mem_append, List.forall_mem_append]
  simp only [List.forall_mem_map, X509Node.certificate_mk, and_assoc]

theorem map_cert_of_map_topSig {a b : List X509Node}
    (h : a.map topSig = b.map topSig) :
    a.map X509Node.certificate = b.map X509Node.certificate := by
  have h2 := congrArg (List.map (fun q : NodeState × Cert × Option CertificateHashData × Cert => q.2.1)) h
  simpa [List.map_map, Function.comp, topSig] using h2

theorem sig_witness {ch' ch : List X509Node} {x : X509Node}
    (h : ch'.map topSig = ch.map topSig) (hx : x ∈ ch') :
    ∃ y ∈ ch, topSig x = topSig y := by
  have hm : topSig x ∈ ch.map topSig := by
    rw [← h]
    exact List.mem_map_of_mem topSig hx
  obtain ⟨y, hy, hsig⟩ := List.mem_map.1 hm
  exact ⟨y, hy, hsig.symm⟩

/-- What a successful linking walk of `insert` does to a disciplined
forest: families stay disciplined, the top-level signatures are either
preserved or (at the re-parenting slot) replaced by the fresh orphan
signature of the inserted certificate — never when every element carries
a hash — the certificate multiset gains `c`, and exactly one new edge
appears, joining `c` to a certificate already in the forest. -/
theorem insertWalk_some_spec {c : Cert} (hc : sfCert c = false) :
    ∀ l l' : List X509Node, insertWalk c l = Except.ok (some l') →
      FamOK l →
      (∀ n ∈ l, n.hash = none →
        n.state = ⟨0, 0⟩ ∧ sfCert n.certificate = false ∧ n.issuer = n.certificate) →
      FamOK l' ∧
      (∀ n' ∈ l', topSig n' ∈ l.map topSig ∨ topSig n' = (⟨0, 0⟩, c, none, c)) ∧
      ((∀ n ∈ l, n.hash ≠ none) → l'.map topSig = l.map topSig) ∧
      (forestCerts l').Perm (c :: forestCerts l) ∧
      (∃ a b, (forestEdges l').Perm ((a, b) :: forestEdges l) ∧ ischild a b = true ∧
        sfCert a = false ∧
        ((a = c ∧ b ∈ forestCerts l) ∨ (b = c ∧ a ∈ forestCerts l))) := by
  intro l
  induction l using insertWalk.induct c with
  | case1 =>
    intro l' hw _ _
    simp [insertWalk] at hw
  | case2 st cert h iss ch rest hci hsf =>
    intro l' hw _ _
    rw [insertWalk] at hw
    simp [hci, hsf] at hw
  | case3 st cert h iss ch rest hci hsf hhs =>
    intro l' hw _ _
    rw [insertWalk] at hw
    simp [hci, hsf, hhs] at hw
  | case4 st cert h iss ch rest hci hsf hhs =>
    -- re-parenting: the inserted certificate becomes a new root above this node
    intro l' hw hfam helems
    have hhn : h = none := by
      cases h with
      | none => rfl
      | some v => simp at hhs
    rw [insertWalk] at hw
    simp only [hci, hsf, hhs, if_true, Bool.false_eq_true, if_false,
      Except.ok.injEq, Option.some.injEq] at hw
    subst hw
    obtain ⟨hch, hfch, hfrest⟩ := (FamOK_cons st cert h iss ch rest).1 hfam
    have hhead := helems (X509Node.mk st cert h iss ch) (List.mem_cons_self _ _) (by simp [hhn])
    simp only [X509Node.state_mk, X509Node.certificate_mk, X509Node.issuer_mk] at hhead
    obtain ⟨hst0, hsfc, hissc⟩ := hhead
    refine ⟨?_, ?_, ?_, ?_, ?_⟩
    · rw [FamOK_cons]
      refine ⟨?_, ?_, hfrest⟩
      · intro x hx
        rcases List.mem_singleton.1 hx with rfl
        exact ⟨rfl, by simpa using hsfc, rfl, by simp, by simpa using hci⟩
      · rw [show ([X509Node.mk ⟨0, 0⟩ cert (some (certHashDataIssuer cert c)) c ch] :
            List X509Node) = X509Node.mk ⟨0, 0⟩ cert (some (certHashDataIssuer cert c)) c ch :: []
            from rfl, FamOK_cons]
        refine ⟨fun x hx => ?_, hfch, by intro q hq; simp [famPairs] at hq⟩
        simpa using hch x hx
    · intro n' hn'
      rcases List.mem_cons.1 hn' with rfl | hmem
      · right; simp [topSig]
      · left
        exact List.mem_map_of_mem topSig (List.mem_cons_of_mem _ hmem)
    · intro hall
      exfalso
      exact hall (X509Node.mk st cert h iss ch) (List.mem_cons_self _ _) (by simp [hhn])
    · rw [forestCerts_cons, forestCerts_cons, forestCerts_cons, forestCerts_nil]
      simp
    · refine ⟨cert, c, ?_, hci, hsfc, Or.inr ⟨rfl, by rw [forestCerts_cons]; simp⟩⟩
      rw [forestEdges_cons, forestEdges_cons, forestEdges_cons, forestEdges_nil]
      simp
  | case5 st cert h iss ch rest hci hcc =>
    -- the inserted certificate is appended as a child of this node
    intro l' hw hfam helems
    rw [insertWalk] at hw
    simp only [hci, hcc, if_true, Bool.false_eq_true, if_false,
      Except.ok.injEq, Option.some.injEq] at hw
    subst hw
    obtain ⟨hch, hfch, hfrest⟩ := (FamOK_cons st cert h iss ch rest).1 hfam
    refine ⟨?_, ?_, ?_, ?_, ?_⟩
    · rw [FamOK_cons]
      refine ⟨?_, ?_, hfrest⟩
      · intro x hx
        rcases List.mem_append.1 hx with hx | hx
        · exact hch x hx
        · rcases List.mem_singleton.1 hx with rfl
          exact ⟨rfl, by simpa using hc, rfl, by simp, by simpa using hcc⟩
      · rw [FamOK_append]
        refine ⟨hfch, ?_⟩
        rw [show ([X509Node.mk ⟨0, 0⟩ c (some (certHashDataIssuer c cert)) cert []] :
            List X509Node) = X509Node.mk ⟨0, 0⟩ c (some (certHashDataIssuer c cert)) cert [] :: []
            from rfl, FamOK_cons]
        exact ⟨by simp, by intro q hq; simp [famPairs] at hq, by intro q hq; simp [famPairs] at hq⟩
    · intro n' hn'
      rcases List.mem_cons.1 hn' with rfl | hmem
      · left; simp [topSig, List.mem_cons]
      · left
        exact List.mem_map_of_mem topSig (List.mem_cons_of_mem _ hmem)
    · intro _
      simp [topSig]
    · rw [forestCerts_cons, forestCerts_cons, forestCerts_append, forestCerts_cons,
        forestCerts_nil]
      simp only [List.append_nil]
      refine List.Perm.trans (List.Perm.cons cert ?_) (List.Perm.swap c cert _)
      have hmid : (forestCerts ch ++ c :: forestCerts rest).Perm
          (c :: (forestCerts ch ++ forestCerts rest)) := List.perm_middle
      refine List.Perm.trans (List.Perm.of_eq ?_) hmid
      simp
    · refine ⟨c, cert, ?_, hcc, hc, Or.inl ⟨rfl, by rw [forestCerts_cons]; simp⟩⟩
      rw [forestEdges_cons, forestEdges_cons, forestEdges_append, forestEdges_cons,
        forestEdges_nil]
      simp only [List.map_append, List.map_cons, List.map_nil, X509Node.certificate_mk,
        List.append_nil]
      have hmid : (List.map (fun x => (x.certificate, cert)) ch ++
          (c, cert) :: (forestEdges ch ++ forestEdges rest)).Perm
          ((c, cert) :: (List.map (fun x => (x.certificate, cert)) ch ++
            (forestEdges ch ++ forestEdges rest))) := List.perm_middle
      refine List.Perm.trans (List.Perm.of_eq ?_) hmid
      simp
  | case6 st cert h iss ch rest hci hcc ch' hwch ih =>
    -- the link was found inside this node's subtree
    intro l' hw hfam helems
    rw [insertWalk] at hw
    simp only [hci, hcc, hwch, if_true, Bool.false_eq_true, if_false,
      Except.ok.injEq, Option.some.injEq] at hw
    subst hw
    obtain ⟨hch, hfch, hfrest⟩ := (FamOK_cons st cert h iss ch rest).1 hfam
    have hallch : ∀ n ∈ ch, n.hash ≠ none := by
      intro n hn hnone
      obtain ⟨-, -, -, hhash, -⟩ := hch n hn
      rw [hnone] at hhash
      exact Option.noConfusion hhash
    have helemsch : ∀ n ∈ ch, n.hash = none →
        n.state = ⟨0, 0⟩ ∧ sfCert n.certificate = false ∧ n.issuer = n.certificate := by
      intro n hn hnone
      exact absurd hnone (hallch n hn)
    obtain ⟨ihfam, ihsig, ihall, ihcerts, a, b, ihedges, hab, hsfa, hside⟩ :=
      ih ch' hwch hfch helemsch
    have hsigs : ch'.map topSig = ch.map topSig := ihall hallch
    refine ⟨?_, ?_, ?_, ?_, ?_⟩
    · rw [FamOK_cons]
      refine ⟨?_, ihfam, hfrest⟩
      intro x hx
      obtain ⟨y, hy, hsig⟩ := sig_witness hsigs hx
      exact ChildOK_of_topSig hsig (hch y hy)
    · intro n' hn'
      rcases List.mem_cons.1 hn' with rfl | hmem
      · left
        exact List.mem_map.2 ⟨X509Node.mk st cert h iss ch, List.mem_cons_self _ _,
          by simp [topSig]⟩
      · left
        exact List.mem_map_of_mem topSig (List.mem_cons_of_mem _ hmem)
    · intro _
      simp [topSig]
    · rw [forestCerts_cons, forestCerts_cons]
      refine List.Perm.trans (List.Perm.cons cert ?_) (List.Perm.swap c cert _)
      exact List.Perm.trans (List.Perm.append_right (forestCerts rest) ihcerts)
        (List.Perm.of_eq (by simp))
    · refine ⟨a, b, ?_, hab, hsfa, ?_⟩
      · rw [forestEdges_cons, forestEdges_cons]
        have hmap : ch'.map (fun x => (x.certificate, cert)) =
            ch.map (fun x => (x.certificate, cert)) := by
          have hcerts := map_cert_of_map_topSig hsigs
          have e1 : ch'.map (fun x => (x.certificate, cert)) =
              (ch'.map X509Node.certificate).map (fun z => (z, cert)) := by
            simp [List.map_map, Function.comp]
          have e2 : ch.map (fun x => (x.certificate, cert)) =
              (ch.map X509Node.certificate).map (fun z => (z, cert)) := by
            simp [List.map_map, Function.comp]
          rw [e1, e2, hcerts]
        rw [hmap]
        refine List.Perm.trans (List.Perm.append_left _
          (List.Perm.append_right (forestEdges rest) ihedges)) ?_
        refine List.Perm.trans (List.Perm.of_eq (by simp)) List.perm_middle
      · rw [forestCerts_cons]
        rcases hside with ⟨ha, hb⟩ | ⟨hb, ha⟩
        · refine Or.inl ⟨ha, ?_⟩
          simp only [List.mem_cons, List.mem_append]
          tauto
        · refine Or.inr ⟨hb, ?_⟩
          simp only [List.mem_cons, List.mem_append]
          tauto
  | case7 st cert h iss ch rest hci hcc hwch rest' hwrest ihch ihrest =>
    -- the link was found further along the root list
    intro l' hw hfam helems
    rw [insertWalk] at hw
    simp only [hci, hcc, hwch, hwrest, if_true, Bool.false_eq_true, if_false,
      Except.ok.injEq, Option.some.injEq] at hw
    subst hw
    obtain ⟨hch, hfch, hfrest⟩ := (FamOK_cons st cert h iss ch rest).1 hfam
    have helemsrest : ∀ n ∈ rest, n.hash = none →
        n.state = ⟨0, 0⟩ ∧ sfCert n.certificate = false ∧ n.issuer = n.certificate :=
      fun n hn => helems n (List.mem_cons_of_mem _ hn)
    obtain ⟨ihfam, ihsig, ihall, ihcerts, a, b, ihedges, hab, hsfa, hside⟩ :=
      ihrest rest' hwrest hfrest helemsrest
    refine ⟨?_, ?_, ?_, ?_, ?_⟩
    · rw [FamOK_cons]
      exact ⟨hch, hfch, ihfam⟩
    · intro n' hn'
      rcases List.mem_cons.1 hn' with rfl | hmem
      · left
        exact List.mem_map.2 ⟨X509Node.mk st cert h iss ch, List.mem_cons_self _ _,
          by simp [topSig]⟩
      · rcases ihsig n' hmem with hmem' | hnew
        · left
          simp only [List.map_cons, List.mem_cons]
          exact Or.inr (by simpa using hmem')
        · right; exact hnew
    · intro hall
      have := ihall (fun n hn => hall n (List.mem_cons_of_mem _ hn))
      simp [this]
    · rw [forestCerts_cons, forestCerts_cons]
      refine List.Perm.trans (List.Perm.cons cert ?_) (List.Perm.swap c cert _)
      exact List.Perm.trans (List.Perm.append_left (forestCerts ch) ihcerts)
        List.perm_middle
    · refine ⟨a, b, ?_, hab, hsfa, ?_⟩
      · rw [forestEdges_cons, forestEdges_cons]
        refine List.Perm.trans (List.Perm.append_left _
          (List.Perm.append_left (forestEdges ch) ihedges)) ?_
        exact List.Perm.trans (List.Perm.append_left _ List.perm_middle) List.perm_middle
      · rw [forestCerts_cons]
        rcases hside with ⟨ha, hb⟩ | ⟨hb, ha⟩
        · refine Or.inl ⟨ha, ?_⟩
          simp only [List.mem_cons, List.mem_append]
          tauto
        · refine Or.inr ⟨hb, ?_⟩
          simp only [List.mem_cons, List.mem_append]
          tauto
  | case8 st cert h iss ch rest hci hcc hwch hwrest ihch ihrest =>
    intro l' hw _ _
    rw [insertWalk] at hw
    simp [hci, hcc, hwch, hwrest] at hw
  | case9 st cert h iss ch rest hci hcc hwch e hwrest ihch ihrest =>
    intro l' hw _ _
    rw [insertWalk] at hw
    simp [hci, hcc, hwch, hwrest] at hw
  | case10 st cert h iss ch rest hci hcc e hwch ihch =>
    intro l' hw _ _
    rw [insertWalk] at hw
    simp [hci, hcc, hwch] at hw

/-- The node `attachWalk` adds below the matched target. -/
theorem attachWalk_some_spec {orph : X509Node}
    (h0 : orph.state.is_selfsigned = 0)
    (h1 : sfCert orph.certificate = false)
    (h2 : ∀ x ∈ orph.children, ChildOK orph.certificate x)
    (h3 : FamOK orph.children) :
    ∀ l l' : List X509Node, attachWalk orph l = some l' →
      FamOK l →
      FamOK l' ∧
      l'.map topSig = l.map topSig ∧
      (forestCerts l').Perm
        ((orph.certificate :: forestCerts orph.children) ++ forestCerts l) := by
  intro l
  induction l using attachWalk.induct orph with
  | case1 =>
    intro l' hw _
    simp [attachWalk] at hw
  | case2 st cert h iss ch rest hci =>
    intro l' hw hfam
    rw [attachWalk] at hw
    simp only [hci, if_true, Option.some.injEq] at hw
    subst hw
    obtain ⟨hch, hfch, hfrest⟩ := (FamOK_cons st cert h iss ch rest).1 hfam
    refine ⟨?_, ?_, ?_⟩
    · rw [FamOK_cons]
      refine ⟨?_, ?_, hfrest⟩
      · intro x hx
        rcases List.mem_append.1 hx with hx | hx
        · exact hch x hx
        · rcases List.mem_singleton.1 hx with rfl
          exact ⟨by simp [h0], by simpa using h1, by simp, by simp, by simpa using hci⟩
      · rw [FamOK_append]
        refine ⟨hfch, ?_⟩
        rw [show ([X509Node.mk ⟨orph.state.is_selfsigned, 0⟩ orph.certificate
              (some (certHashDataIssuer orph.certificate cert)) cert orph.children] :
            List X509Node) = X509Node.mk ⟨orph.state.is_selfsigned, 0⟩ orph.certificate
              (some (certHashDataIssuer orph.certificate cert)) cert orph.children :: []
            from rfl, FamOK_cons]
        refine ⟨fun x hx => by simpa using h2 x hx, by simpa using h3,
          by intro q hq; simp [famPairs] at hq⟩
    · simp [topSig]
    · rw [forestCerts_cons, forestCerts_cons, forestCerts_append, forestCerts_cons,
        forestCerts_nil]
      simp only [List.append_nil]
      refine List.Perm.trans (List.Perm.cons cert (List.Perm.trans (List.Perm.of_eq (by simp))
        (List.perm_append_comm_assoc (forestCerts ch) _ _))) List.perm_middle.symm
  | case3 st cert h iss ch rest hci ch' hwch ih =>
    intro l' hw hfam
    rw [attachWalk] at hw
    simp only [hci, Bool.false_eq_true, if_false, hwch, Option.some.injEq] at hw
    subst hw
    obtain ⟨hch, hfch, hfrest⟩ := (FamOK_cons st cert h iss ch rest).1 hfam
    obtain ⟨ihfam, ihsig, ihcerts⟩ := ih ch' hwch hfch
    refine ⟨?_, ?_, ?_⟩
    · rw [FamOK_cons]
      refine ⟨?_, ihfam, hfrest⟩
      intro x hx
      obtain ⟨y, hy, hsig⟩ := sig_witness ihsig hx
      exact ChildOK_of_topSig hsig (hch y hy)
    · simp [topSig]
    · rw [forestCerts_cons, forestCerts_cons]
      refine List.Perm.trans (List.Perm.cons cert
        (List.Perm.append_right (forestCerts rest) ihcerts)) ?_
      refine List.Perm.trans (List.Perm.cons cert (List.Perm.of_eq (by simp)))
        List.perm_middle.symm
  | case4 st cert h iss ch rest hci hwch rest' hwrest ih1 ih2 =>
    intro l' hw hfam
    rw [attachWalk] at hw
    simp only [hci, Bool.false_eq_true, if_false, hwch, hwrest, Option.some.injEq] at hw
    subst hw
    obtain ⟨hch, hfch, hfrest⟩ := (FamOK_cons st cert h iss ch rest).1 hfam
    obtain ⟨ihfam, ihsig, ihcerts⟩ := ih2 rest' hwrest hfrest
    refine ⟨?_, ?_, ?_⟩
    · rw [FamOK_cons]
      exact ⟨hch, hfch, ihfam⟩
    · simp [topSig, ihsig]
    · rw [forestCerts_cons, forestCerts_cons]
      refine List.Perm.trans (List.Perm.cons cert
        (List.Perm.append_left (forestCerts ch) ihcerts)) ?_
      refine List.Perm.trans (List.Perm.cons cert
        (List.perm_append_comm_assoc (forestCerts ch) _ _)) List.perm_middle.symm
  | case5 st cert h iss ch rest hci hwch hwrest =>
    intro l' hw _
    rw [attachWalk] at hw
    simp [hci, hwch, hwrest] at hw

/-- Failure of the prune search: no node of the forest is an issuer of
the orphan. -/
theorem attachWalk_none_spec {orph : X509Node} :
    ∀ l : List X509Node, attachWalk orph l = none →
      ∀ n ∈ allNodes l, ischild orph.certificate n.certificate = false := by
  intro l
  induction l using attachWalk.induct orph with
  | case1 =>
    intro _ n hn
    simp [allNodes] at hn
  | case2 st cert h iss ch rest hci =>
    intro hw
    rw [attachWalk] at hw
    simp [hci] at hw
  | case3 st cert h iss ch rest hci ch' hwch ih =>
    intro hw
    rw [attachWalk] at hw
    simp [hci, hwch] at hw
  | case4 st cert h iss ch rest hci hwch rest' hwrest ih1 ih2 =>
    intro hw
    rw [attachWalk] at hw
    simp [hci, hwch, hwrest] at hw
  | case5 st cert h iss ch rest hci hwch hwrest ih1 ih2 =>
    intro _ n hn
    simp only [allNodes, List.mem_cons, List.mem_append] at hn
    rcases hn with rfl | hn | hn
    · simpa using Bool.of_not_eq_true hci
    · exact ih1 hwch n hn
    · exact ih2 hwrest n hn

theorem famPairs_nil : famPairs [] = [] := by
  simp [famPairs]

theorem FamOK_nil : FamOK [] := by
  intro q hq
  rw [famPairs_nil] at hq
  cases hq

/-- What the partial prune of a self-signed insertion does: the kept
roots keep their discipline, the moved roots become disciplined children
of the inserted certificate, and no certificate is gained or lost. -/
theorem partialPrune_spec {c : Cert} :
    ∀ l kept moved, partialPrune c l = Except.ok (kept, moved) →
      FamOK l → (∀ r ∈ l, RootOK r) →
      FamOK kept ∧ (∀ k ∈ kept, RootOK k) ∧
      (∀ m ∈ moved, ChildOK c m) ∧ FamOK moved ∧
      (forestCerts kept ++ forestCerts moved).Perm (forestCerts l) := by
  intro l
  induction l using partialPrune.induct c with
  | case1 =>
    intro kept moved hw _ _
    rw [partialPrune] at hw
    obtain ⟨rfl, rfl⟩ := Prod.mk.injEq .. ▸ Except.ok.inj hw
    refine ⟨FamOK_nil, by simp, by simp, FamOK_nil, by rw [forestCerts_nil]; rfl⟩
  | case2 n rest hsel hhs =>
    intro kept moved hw _ hroots
    exfalso
    have hr := hroots n (List.mem_cons_self _ _)
    have hsf : sfCert n.certificate = false := by
      by_contra hcon
      have := (hr.1 (by simpa using hcon)).1
      rw [this] at hsel
      simp at hsel
    have := (hr.2 hsf).2.1
    rw [this] at hhs
    simp at hhs
  | case3 n rest hsel hhs hchild kept0 moved0 hrec ih =>
    intro kept moved hw hfam hroots
    obtain ⟨st, cert, h, iss, ch⟩ := n
    simp only [X509Node.state_mk, X509Node.certificate_mk, X509Node.hash_mk,
      X509Node.children_mk] at hsel hhs hchild hw ⊢
    rw [partialPrune] at hw
    simp only [X509Node.state_mk, X509Node.certificate_mk, X509Node.hash_mk,
      X509Node.children_mk, hsel, hhs, hchild, hrec, if_true, Bool.false_eq_true,
      if_false, Except.ok.injEq, Prod.mk.injEq] at hw
    obtain ⟨rfl, rfl⟩ := hw
    obtain ⟨hch, hfch, hfrest⟩ := (FamOK_cons st cert h iss ch rest).1 hfam
    have hr := hroots (X509Node.mk st cert h iss ch) (List.mem_cons_self _ _)
    have hsf : sfCert cert = false := by
      by_contra hcon
      have := (hr.1 (by simpa using hcon)).1
      simp only [X509Node.state_mk] at this
      rw [this] at hsel
      simp at hsel
    have hst : st = ⟨0, 0⟩ := by
      have := (hr.2 (by simpa using hsf)).1
      simpa using this
    obtain ⟨ihk, ihkr, ihm, ihfm, ihcerts⟩ :=
      ih kept0 moved0 hrec hfrest (fun r hr => hroots r (List.mem_cons_of_mem _ hr))
    refine ⟨ihk, ihkr, ?_, ?_, ?_⟩
    · intro m hm
      rcases List.mem_cons.1 hm with rfl | hm
      · refine ⟨by simp [hst], by simpa using hsf, by simp, by simp, by simpa using hchild⟩
      · exact ihm m hm
    · rw [FamOK_cons]
      refine ⟨fun x hx => by simpa using hch x hx, hfch, ihfm⟩
    · rw [forestCerts_cons, forestCerts_cons]
      refine List.Perm.trans List.perm_middle ?_
      refine List.Perm.cons cert ?_
      refine List.Perm.trans (List.perm_append_comm_assoc (forestCerts kept0) _ _) ?_
      exact List.Perm.append_left (forestCerts ch) ihcerts
  | case4 n rest hsel hhs hchild e hrec ih =>
    intro kept moved hw _ _
    obtain ⟨st, cert, h, iss, ch⟩ := n
    rw [partialPrune] at hw
    have hz : st.is_selfsigned = 0 := by simpa using hsel
    have hh : h.isSome = false := by simpa using hhs
    simp [hz, hh, hchild, hrec] at hw
  | case5 n rest hsel hhs hchild kept0 moved0 hrec ih =>
    intro kept moved hw hfam hroots
    obtain ⟨st, cert, h, iss, ch⟩ := n
    simp only [X509Node.state_mk, X509Node.certificate_mk, X509Node.hash_mk,
      X509Node.children_mk] at hsel hhs hchild hw ⊢
    rw [partialPrune] at hw
    simp only [X509Node.state_mk, X509Node.certificate_mk, X509Node.hash_mk,
      X509Node.children_mk, hsel, hhs, hchild, hrec, if_true, Bool.false_eq_true,
      if_false, Except.ok.injEq, Prod.mk.injEq] at hw
    obtain ⟨rfl, rfl⟩ := hw
    obtain ⟨hch, hfch, hfrest⟩ := (FamOK_cons st cert h iss ch rest).1 hfam
    obtain ⟨ihk, ihkr, ihm, ihfm, ihcerts⟩ :=
      ih kept0 moved0 hrec hfrest (fun r hr => hroots r (List.mem_cons_of_mem _ hr))
    refine ⟨?_, ?_, ihm, ihfm, ?_⟩
    · rw [FamOK_cons]
      exact ⟨hch, hfch, ihk⟩
    · intro k hk
      rcases List.mem_cons.1 hk with rfl | hk
      · exact hroots _ (List.mem_cons_self _ _)
      · exact ihkr k hk
    · simp only [forestCerts_cons, List.cons_append, List.append_assoc]
      exact List.Perm.cons cert (List.Perm.append_left (forestCerts ch) ihcerts)
  | case6 n rest hsel hhs hchild e hrec ih =>
    intro kept moved hw _ _
    obtain ⟨st, cert, h, iss, ch⟩ := n
    rw [partialPrune] at hw
    have hz : st.is_selfsigned = 0 := by simpa using hsel
    have hh : h.isSome = false := by simpa using hhs
    simp [hz, hh, hchild, hrec] at hw
  | case7 n rest hsel kept0 moved0 hrec ih =>
    intro kept moved hw hfam hroots
    obtain ⟨st, cert, h, iss, ch⟩ := n
    simp only [X509Node.state_mk] at hsel
    rw [partialPrune] at hw
    simp only [X509Node.state_mk, hsel, Bool.false_eq_true, if_false, hrec,
      Except.ok.injEq, Prod.mk.injEq] at hw
    obtain ⟨rfl, rfl⟩ := hw
    obtain ⟨hch, hfch, hfrest⟩ := (FamOK_cons st cert h iss ch rest).1 hfam
    obtain ⟨ihk, ihkr, ihm, ihfm, ihcerts⟩ :=
      ih kept0 moved0 hrec hfrest (fun r hr => hroots r (List.mem_cons_of_mem _ hr))
    refine ⟨?_, ?_, ihm, ihfm, ?_⟩
    · rw [FamOK_cons]
      exact ⟨hch, hfch, ihk⟩
    · intro k hk
      rcases List.mem_cons.1 hk with rfl | hk
      · exact hroots _ (List.mem_cons_self _ _)
      · exact ihkr k hk
    · simp only [forestCerts_cons, List.cons_append, List.append_assoc]
      exact List.Perm.cons cert (List.Perm.append_left (forestCerts ch) ihcerts)
  | case8 n rest hsel e hrec ih =>
    intro kept moved hw _ _
    obtain ⟨st, cert, h, iss, ch⟩ := n
    rw [partialPrune] at hw
    have hz : st.is_selfsigned ≠ 0 := by simpa using hsel
    simp [hz, hrec] at hw

theorem RootOK_newOrphan {c : Cert} (hc : sfCert c = false) :
    RootOK (newOrphanNode c) := by
  constructor
  · intro hcon
    have : sfCert c = true := by simpa [newOrphanNode] using hcon
    rw [hc] at this
    exact Bool.noConfusion this
  · intro _
    exact ⟨rfl, rfl, rfl⟩

/-- `insert` preserves the insertion-phase invariant and adds exactly the
inserted certificate to the forest. -/
theorem insert_spec {c : Cert} :
    ∀ f f', insert c f = Except.ok f' → InsOK f →
      InsOK f' ∧ (forestCerts f').Perm (c :: forestCerts f) := by
  intro f f' hw hok
  obtain ⟨hfam, hroots⟩ := hok
  have helems : ∀ n ∈ f, n.hash = none →
      n.state = ⟨0, 0⟩ ∧ sfCert n.certificate = false ∧ n.issuer = n.certificate := by
    intro n hn hnone
    have hr := hroots n hn
    have hsf : sfCert n.certificate = false := by
      by_contra hcon
      have := (hr.1 (by simpa using hcon)).2.1
      rw [hnone] at this
      exact Option.noConfusion this
    obtain ⟨h1, h2, h3⟩ := hr.2 hsf
    exact ⟨h1, hsf, h3⟩
  by_cases hsf : sfCert c = false
  · rw [EvseSecurity.insert, if_pos hsf] at hw
    cases hwk : insertWalk c f with
    | ok o =>
      cases o with
      | some h' =>
        rw [hwk] at hw
        have hf' : f' = h' := (Except.ok.inj hw).symm
        subst hf'
        obtain ⟨hfam', hsig', hall', hcerts', -⟩ :=
          insertWalk_some_spec hsf f f' hwk hfam helems
        refine ⟨⟨hfam', ?_⟩, hcerts'⟩
        intro r hr
        rcases hsig' r hr with hmem | hnew
        · obtain ⟨n, hn, hsigeq⟩ := List.mem_map.1 hmem
          exact RootOK_of_topSig hsigeq.symm (hroots n hn)
        · have : topSig r = topSig (newOrphanNode c) := by
            rw [hnew]; rfl
          exact RootOK_of_topSig this (RootOK_newOrphan hsf)
      | none =>
        rw [hwk] at hw
        have hf' : f' = f ++ [newOrphanNode c] := (Except.ok.inj hw).symm
        subst hf'
        refine ⟨⟨?_, ?_⟩, ?_⟩
        · rw [FamOK_append]
          refine ⟨hfam, ?_⟩
          rw [show ([newOrphanNode c] : List X509Node) = newOrphanNode c :: [] from rfl]
          rw [show newOrphanNode c = X509Node.mk ⟨0, 0⟩ c none c [] from rfl, FamOK_cons]
          exact ⟨by simp, FamOK_nil, FamOK_nil⟩
        · intro r hr
          rcases List.mem_append.1 hr with hr | hr
          · exact hroots r hr
          · rcases List.mem_singleton.1 hr with rfl
            exact RootOK_newOrphan hsf
        · rw [forestCerts_append]
          rw [show ([newOrphanNode c] : List X509Node) =
            X509Node.mk ⟨0, 0⟩ c none c [] :: [] from rfl, forestCerts_cons, forestCerts_nil]
          simp only [List.append_nil]
          refine List.Perm.trans List.perm_middle (List.Perm.of_eq (by simp))
    | error e =>
      rw [hwk] at hw
      exact Except.noConfusion hw
  · rw [EvseSecurity.insert, if_neg hsf] at hw
    cases hwp : partialPrune c f with
    | ok pr =>
      obtain ⟨kept, moved⟩ := pr
      rw [hwp] at hw
      have hf' : f' = kept ++
          [X509Node.mk ⟨1, 0⟩ c (some (certHashDataSelf c)) c moved] := (Except.ok.inj hw).symm
      subst hf'
      obtain ⟨hkfam, hkroots, hmoved, hmfam, hcerts⟩ :=
        partialPrune_spec f kept moved hwp hfam hroots
      have hsft : sfCert c = true := by
        cases hx : sfCert c with
        | false => exact absurd hx hsf
        | true => rfl
      refine ⟨⟨?_, ?_⟩, ?_⟩
      · rw [FamOK_append]
        refine ⟨hkfam, ?_⟩
        rw [show ([X509Node.mk ⟨1, 0⟩ c (some (certHashDataSelf c)) c moved] :
          List X509Node) = X509Node.mk ⟨1, 0⟩ c (some (certHashDataSelf c)) c moved :: []
          from rfl, FamOK_cons]
        exact ⟨fun x hx => by simpa using hmoved x hx, hmfam, FamOK_nil⟩
      · intro r hr
        rcases List.mem_append.1 hr with hr | hr
        · exact hkroots r hr
        · rcases List.mem_singleton.1 hr with rfl
          constructor
          · intro _
            exact ⟨rfl, by simp, rfl⟩
          · intro hcon
            simp only [X509Node.certificate_mk] at hcon
            rw [hsft] at hcon
            exact Bool.noConfusion hcon
      · rw [forestCerts_append]
        rw [show ([X509Node.mk ⟨1, 0⟩ c (some (certHashDataSelf c)) c moved] :
          List X509Node) = X509Node.mk ⟨1, 0⟩ c (some (certHashDataSelf c)) c moved :: []
          from rfl, forestCerts_cons, forestCerts_nil]
        simp only [List.append_nil]
        refine List.Perm.trans List.perm_middle ?_
        exact List.Perm.cons c hcerts
    | error e =>
      rw [hwp] at hw
      exact Except.noConfusion hw

/-- Sequential insertion from the empty forest keeps the invariant. -/
theorem insertSeq_spec :
    ∀ l h, insertSeq l = Except.ok h →
      InsOK h ∧ (forestCerts h).Perm l := by
  intro l
  induction l using List.reverseRecOn with
  | nil =>
    intro h hw
    have : h = [] := by
      simpa [insertSeq, List.foldlM] using (Except.ok.inj hw).symm
    subst this
    refine ⟨⟨FamOK_nil, by simp⟩, by rw [forestCerts_nil]⟩
  | append_singleton l2 c ih =>
    intro h hw
    rw [insertSeq, List.foldlM_append] at hw
    cases hs : List.foldlM (fun h c => insert c h) ([] : List X509Node) l2 with
    | error e =>
      rw [hs] at hw
      exact absurd hw (by simp [Bind.bind, Except.bind])
    | ok h0 =>
      rw [hs] at hw
      obtain ⟨ihok, ihperm⟩ := ih h0 hs
      have hw2 : List.foldlM (fun h c => insert c h) h0 [c] = Except.ok h := by
        simpa [Bind.bind, Except.bind] using hw
      rw [List.foldlM_cons] at hw2
      cases hi : insert c h0 with
      | error e =>
        rw [hi] at hw2
        exact absurd hw2 (by simp [Bind.bind, Except.bind])
      | ok h1 =>
        rw [hi] at hw2
        have hh : h1 = h := by
          simpa [Bind.bind, Except.bind, List.foldlM, Pure.pure, Except.pure] using hw2
        subst hh
        obtain ⟨hok1, hperm1⟩ := insert_spec h0 h1 hi ihok
        refine ⟨hok1, ?_⟩
        refine List.Perm.trans hperm1 ?_
        exact List.Perm.trans (List.Perm.cons c ihperm) (List.perm_append_singleton c l2).symm

theorem DoneRoot_of_topSig {S0 : List Cert} {m n : X509Node}
    (hs : topSig m = topSig n) (h : DoneRoot S0 n) : DoneRoot S0 m := by
  obtain ⟨h1, h2, h3, h4⟩ := topSig_fields hs
  unfold DoneRoot at h ⊢
  rw [h1, h2, h3, h4]
  exact h

theorem attachWalk_length {orph : X509Node} :
    ∀ l l' : List X509Node, attachWalk orph l = some l' → l'.length = l.length := by
  intro l
  induction l using attachWalk.induct orph with
  | case1 =>
    intro l' hw
    simp [attachWalk] at hw
  | case2 st cert h iss ch rest hci =>
    intro l' hw
    rw [attachWalk] at hw
    simp only [hci, if_true, Option.some.injEq] at hw
    subst hw
    simp
  | case3 st cert h iss ch rest hci ch' hwch ih =>
    intro l' hw
    rw [attachWalk] at hw
    simp only [hci, Bool.false_eq_true, if_false, hwch, Option.some.injEq] at hw
    subst hw
    simp
  | case4 st cert h iss ch rest hci hwch rest' hwrest ih1 ih2 =>
    intro l' hw
    rw [attachWalk] at hw
    simp only [hci, Bool.false_eq_true, if_false, hwch, hwrest, Option.some.injEq] at hw
    subst hw
    simpa using ih2 rest' hwrest
  | case5 st cert h iss ch rest hci hwch hwrest =>
    intro l' hw
    rw [attachWalk] at hw
    simp [hci, hwch, hwrest] at hw

theorem ischild_self (c : Cert) : ischild c c = sfCert c := rfl

/-- A non-self-signed root that the prune search cannot attach anywhere
is not issued by any certificate of the forest. -/
theorem sfCert_false_of_RootOK_selfsigned_zero {r : X509Node} (hr : RootOK r)
    (hz : r.state.is_selfsigned = 0) : sfCert r.certificate = false := by
  by_contra hcon
  have := (hr.1 (by simpa using hcon)).1
  rw [this] at hz
  exact absurd hz (by simp)

/-- The prune loop: processed roots are self-signed or marked permanent
orphans with no issuer in the forest, families stay disciplined, and the
certificate multiset is preserved. -/
theorem pruneGo_spec (S0 : List Cert) :
    ∀ (fuel : Nat) (done rest H : List X509Node),
      fuel = rest.length →
      pruneGo fuel done rest = Except.ok H →
      FamOK (done ++ rest) →
      (∀ r ∈ done, DoneRoot S0 r) →
      (∀ r ∈ rest, RootOK r) →
      (forestCerts (done ++ rest)).Perm S0 →
      FamOK H ∧ (∀ r ∈ H, DoneRoot S0 r) ∧ (forestCerts H).Perm S0 := by
  intro fuel
  induction fuel with
  | zero =>
    intro done rest H hlen hw hfam hdone hrest hperm
    have hnil : rest = [] := List.length_eq_zero.1 hlen.symm
    subst hnil
    rw [pruneGo] at hw
    have hH : H = done := (Except.ok.inj hw).symm
    subst hH
    rw [List.append_nil] at hfam hperm
    exact ⟨hfam, hdone, hperm⟩
  | succ fuel ih =>
    intro done rest H hlen hw hfam hdone hrest hperm
    cases rest with
    | nil => simp at hlen
    | cons r rest2 =>
      have hlen2 : fuel = rest2.length := by simpa using hlen
      obtain ⟨st, cert, hh, iss, ch⟩ := r
      obtain ⟨hfdone, hfcons⟩ := (FamOK_append done _).1 hfam
      obtain ⟨hchOK, hfch, hfrest2⟩ := (FamOK_cons st cert hh iss ch rest2).1 hfcons
      have hrootr := hrest _ (List.mem_cons_self _ _)
      have hrest2 : ∀ x ∈ rest2, RootOK x := fun x hx => hrest x (List.mem_cons_of_mem _ hx)
      rw [pruneGo] at hw
      simp only [X509Node.state_mk] at hw
      by_cases hcond : (st.is_selfsigned == 0 && st.is_orphan == 0) = true
      · -- an unprocessed orphan root
        rw [if_pos hcond] at hw
        have hz : st.is_selfsigned = 0 := by
          have hc2 := hcond
          rw [Bool.and_eq_true] at hc2
          simpa using hc2.1
        have hsfr : sfCert cert = false := by
          have := sfCert_false_of_RootOK_selfsigned_zero hrootr
          simpa using this (by simpa using hz)
        have hRfields := hrootr.2 (by simpa using hsfr)
        simp only [X509Node.state_mk, X509Node.hash_mk, X509Node.issuer_mk,
          X509Node.certificate_mk] at hRfields
        obtain ⟨hst00, hhnone, hissc⟩ := hRfields
        have hchOK' : ∀ x ∈ (X509Node.mk st cert hh iss ch).children,
            ChildOK (X509Node.mk st cert hh iss ch).certificate x := by
          simpa using hchOK
        have hfch' : FamOK (X509Node.mk st cert hh iss ch).children := by simpa using hfch
        have h0' : (X509Node.mk st cert hh iss ch).state.is_selfsigned = 0 := by simpa using hz
        have h1' : sfCert (X509Node.mk st cert hh iss ch).certificate = false := by
          simpa using hsfr
        cases had : attachWalk (X509Node.mk st cert hh iss ch) done with
        | some done' =>
          rw [had] at hw
          obtain ⟨hfdone', hsigs', hcerts'⟩ :=
            attachWalk_some_spec h0' h1' hchOK' hfch' done done' had hfdone
          have hdone' : ∀ x ∈ done', DoneRoot S0 x := by
            intro x hx
            obtain ⟨y, hy, hsig⟩ := sig_witness hsigs' hx
            exact DoneRoot_of_topSig hsig (hdone y hy)
          refine ih done' rest2 H hlen2 hw ?_ hdone' hrest2 ?_
          · rw [FamOK_append]
            exact ⟨hfdone', hfrest2⟩
          · rw [forestCerts_append]
            refine List.Perm.trans (List.Perm.append_right (forestCerts rest2) hcerts') ?_
            refine List.Perm.trans (List.Perm.of_eq (List.append_assoc _ _ _)) ?_
            refine List.Perm.trans
              (List.perm_append_comm_assoc _ (forestCerts done) _) ?_
            refine List.Perm.trans (List.Perm.of_eq ?_) hperm
            rw [forestCerts_append, forestCerts_cons]
            simp
        | none =>
          rw [had] at hw
          cases hself : attachWalk (X509Node.mk st cert hh iss ch)
              (X509Node.mk st cert hh iss ch).children with
          | some selfr =>
            rw [hself] at hw
            simp at hw
          | none =>
            rw [hself] at hw
            simp only [Option.isSome_none, Bool.false_eq_true, if_false] at hw
            have hself2 : attachWalk (X509Node.mk st cert hh iss ch) ch = none := by
              simpa using hself
            cases hr2 : attachWalk (X509Node.mk st cert hh iss ch) rest2 with
            | some rest2' =>
              rw [hr2] at hw
              obtain ⟨hfrest2', hsigs', hcerts'⟩ :=
                attachWalk_some_spec h0' h1' hchOK' hfch' rest2 rest2' hr2 hfrest2
              have hlen2' : fuel = rest2'.length := by
                rw [hlen2, attachWalk_length rest2 rest2' hr2]
              have hrest2' : ∀ x ∈ rest2', RootOK x := by
                intro x hx
                obtain ⟨y, hy, hsig⟩ := sig_witness hsigs' hx
                exact RootOK_of_topSig hsig (hrest2 y hy)
              refine ih done rest2' H hlen2' hw ?_ hdone hrest2' ?_
              · rw [FamOK_append]
                exact ⟨hfdone, hfrest2'⟩
              · rw [forestCerts_append]
                refine List.Perm.trans (List.Perm.append_left (forestCerts done) hcerts') ?_
                refine List.Perm.trans (List.Perm.of_eq ?_) hperm
                rw [forestCerts_append, forestCerts_cons]
                simp
            | none =>
              rw [hr2] at hw
              -- marked as a permanent orphan
              have hnochild : ∀ p ∈ S0, ischild cert p = false := by
                intro p hp
                have hmem : p ∈ forestCerts (done ++ X509Node.mk st cert hh iss ch :: rest2) :=
                  hperm.symm.mem_iff.1 hp
                rw [forestCerts_append, forestCerts_cons] at hmem
                rcases List.mem_append.1 hmem with hmem | hmem
                · obtain ⟨n, hn, rfl⟩ := List.mem_map.1 hmem
                  have := attachWalk_none_spec done had n hn
                  simpa using this
                · rcases List.mem_cons.1 hmem with rfl | hmem
                  · rw [ischild_self]
                    exact hsfr
                  · rcases List.mem_append.1 hmem with hmem | hmem
                    · obtain ⟨n, hn, rfl⟩ := List.mem_map.1 hmem
                      have := attachWalk_none_spec ch hself2 n hn
                      simpa using this
                    · obtain ⟨n, hn, rfl⟩ := List.mem_map.1 hmem
                      have := attachWalk_none_spec rest2 hr2 n hn
                      simpa using this
              have hdone2 : ∀ x ∈ done ++ [X509Node.mk ⟨st.is_selfsigned, 1⟩ cert hh iss ch],
                  DoneRoot S0 x := by
                intro x hx
                rcases List.mem_append.1 hx with hx | hx
                · exact hdone x hx
                · rcases List.mem_singleton.1 hx with rfl
                  refine Or.inr ⟨by simpa using hsfr, ?_, ?_, ?_, ?_⟩
                  · simp [hz]
                  · simpa using hhnone
                  · simpa using hissc
                  · simpa using hnochild
              refine ih (done ++ [X509Node.mk ⟨st.is_selfsigned, 1⟩ cert hh iss ch]) rest2 H
                hlen2 hw ?_ hdone2 hrest2 ?_
              · rw [List.append_assoc]
                rw [show ([X509Node.mk ⟨st.is_selfsigned, 1⟩ cert hh iss ch] ++ rest2 : List X509Node)
                    = X509Node.mk ⟨st.is_selfsigned, 1⟩ cert hh iss ch :: rest2 from rfl]
                rw [FamOK_append]
                refine ⟨hfdone, ?_⟩
                rw [FamOK_cons]
                exact ⟨by simpa using hchOK, by simpa using hfch, hfrest2⟩
              · rw [List.append_assoc]
                rw [show ([X509Node.mk ⟨st.is_selfsigned, 1⟩ cert hh iss ch] ++ rest2 : List X509Node)
                    = X509Node.mk ⟨st.is_selfsigned, 1⟩ cert hh iss ch :: rest2 from rfl]
                refine List.Perm.trans (List.Perm.of_eq ?_) hperm
                rw [forestCerts_append, forestCerts_cons, forestCerts_append, forestCerts_cons]
      · -- skipped root: self-signed (or already marked)
        rw [if_neg hcond] at hw
        have hDr : DoneRoot S0 (X509Node.mk st cert hh iss ch) := by
          by_cases hsfc : sfCert cert = true
          · obtain ⟨hst, hha, his⟩ := hrootr.1 (by simpa using hsfc)
            exact Or.inl ⟨by simpa using hsfc, by simpa using hst, by simpa using hha,
              by simpa using his⟩
          · exfalso
            have hsfc' : sfCert cert = false := by
              cases hx : sfCert cert with
              | true => exact absurd hx hsfc
              | false => rfl
            obtain ⟨hst, -, -⟩ := hrootr.2 (by simpa using hsfc')
            simp only [X509Node.state_mk] at hst
            rw [hst] at hcond
            simp at hcond
        have hdone2 : ∀ x ∈ done ++ [X509Node.mk st cert hh iss ch], DoneRoot S0 x := by
          intro x hx
          rcases List.mem_append.1 hx with hx | hx
          · exact hdone x hx
          · rcases List.mem_singleton.1 hx with rfl
            exact hDr
        refine ih (done ++ [X509Node.mk st cert hh iss ch]) rest2 H hlen2 hw ?_ hdone2
          hrest2 ?_
        · rw [List.append_assoc]
          rw [show ([X509Node.mk st cert hh iss ch] ++ rest2 : List X509Node)
              = X509Node.mk st cert hh iss ch :: rest2 from rfl]
          exact hfam
        · rw [List.append_assoc]
          rw [show ([X509Node.mk st cert hh iss ch] ++ rest2 : List X509Node)
              = X509Node.mk st cert hh iss ch :: rest2 from rfl]
          exact hperm

theorem mem_allNodes_of_mem :
    ∀ l : List X509Node, ∀ n ∈ l, n ∈ allNodes l := by
  intro l
  induction l using allNodes.induct with
  | case1 =>
    intro n hn
    cases hn
  | case2 st c h i ch rest ih1 ih2 =>
    intro n hn
    simp only [allNodes, List.mem_cons, List.mem_append]
    rcases List.mem_cons.1 hn with rfl | hn
    · left; rfl
    · right; right
      exact ih2 n hn

theorem famPairs_mem_allNodes :
    ∀ l : List X509Node, ∀ q ∈ famPairs l, q.1 ∈ allNodes l ∧ q.2 ∈ allNodes l := by
  intro l
  induction l using famPairs.induct with
  | case1 =>
    intro q hq
    rw [famPairs_nil] at hq
    cases hq
  | case2 st c h i ch rest ih1 ih2 =>
    intro q hq
    rw [famPairs_cons] at hq
    simp only [allNodes, List.mem_cons, List.mem_append]
    rcases List.mem_append.1 hq with hq | hq
    · obtain ⟨x, hx, rfl⟩ := List.mem_map.1 hq
      constructor
      · right; left
        exact mem_allNodes_of_mem ch x hx
      · left; rfl
    · rcases List.mem_append.1 hq with hq | hq
      · obtain ⟨hx1, hx2⟩ := ih1 q hq
        exact ⟨Or.inr (Or.inl hx1), Or.inr (Or.inl hx2)⟩
      · obtain ⟨hx1, hx2⟩ := ih2 q hq
        exact ⟨Or.inr (Or.inr hx1), Or.inr (Or.inr hx2)⟩

theorem allNodes_cases :
    ∀ l : List X509Node, ∀ n ∈ allNodes l, n ∈ l ∨ ∃ p, (n, p) ∈ famPairs l := by
  intro l
  induction l using allNodes.induct with
  | case1 =>
    intro n hn
    simp [allNodes] at hn
  | case2 st c h i ch rest ih1 ih2 =>
    intro n hn
    simp only [allNodes, List.mem_cons, List.mem_append] at hn
    rcases hn with rfl | hn | hn
    · exact Or.inl (List.mem_cons_self _ _)
    · rcases ih1 n hn with hmem | ⟨p, hp⟩
      · refine Or.inr ⟨X509Node.mk st c h i ch, ?_⟩
        rw [famPairs_cons]
        refine List.mem_append.2 (Or.inl ?_)
        exact List.mem_map.2 ⟨n, hmem, rfl⟩
      · refine Or.inr ⟨p, ?_⟩
        rw [famPairs_cons]
        exact List.mem_append.2 (Or.inr (List.mem_append.2 (Or.inl hp)))
    · rcases ih2 n hn with hmem | ⟨p, hp⟩
      · exact Or.inl (List.mem_cons_of_mem _ hmem)
      · refine Or.inr ⟨p, ?_⟩
        rw [famPairs_cons]
        exact List.mem_append.2 (Or.inr (List.mem_append.2 (Or.inr hp)))

/-- Where the sanity-check throws of the insert walk come from: a node
that the inserted certificate issues and that is either flagged
self-signed or already carries a hash. -/
theorem insertWalk_error_spec {c : Cert} :
    ∀ (l : List X509Node) (e : HErr), insertWalk c l = Except.error e →
      ∃ t ∈ allNodes l, ischild t.certificate c = true ∧
        (t.state.is_selfsigned ≠ 0 ∨ t.hash.isSome = true) := by
  intro l
  induction l using insertWalk.induct c with
  | case1 =>
    intro e hw
    simp [insertWalk] at hw
  | case2 st cert h iss ch rest hci hsf =>
    intro e hw
    refine ⟨X509Node.mk st cert h iss ch, ?_, by simpa using hci, Or.inl ?_⟩
    · simp [allNodes]
    · simpa using hsf
  | case3 st cert h iss ch rest hci hsf hhs =>
    intro e hw
    refine ⟨X509Node.mk st cert h iss ch, ?_, by simpa using hci, Or.inr (by simpa using hhs)⟩
    simp [allNodes]
  | case4 st cert h iss ch rest hci hsf hhs =>
    intro e hw
    rw [insertWalk] at hw
    simp only [hci, hsf, hhs, if_true, Bool.false_eq_true, if_false] at hw
    exact Except.noConfusion hw
  | case5 st cert h iss ch rest hci hcc =>
    intro e hw
    rw [insertWalk] at hw
    simp only [hci, hcc, if_true, Bool.false_eq_true, if_false] at hw
    exact Except.noConfusion hw
  | case6 st cert h iss ch rest hci hcc ch' hwch ih =>
    intro e hw
    rw [insertWalk] at hw
    simp only [hci, hcc, hwch, Bool.false_eq_true, if_false] at hw
    exact Except.noConfusion hw
  | case7 st cert h iss ch rest hci hcc hwch rest' hwrest ihch ihrest =>
    intro e hw
    rw [insertWalk] at hw
    simp only [hci, hcc, hwch, hwrest, Bool.false_eq_true, if_false] at hw
    exact Except.noConfusion hw
  | case8 st cert h iss ch rest hci hcc hwch hwrest ihch ihrest =>
    intro e hw
    rw [insertWalk] at hw
    simp only [hci, hcc, hwch, hwrest, Bool.false_eq_true, if_false] at hw
    exact Except.noConfusion hw
  | case9 st cert h iss ch rest hci hcc hwch e0 hwrest ihch ihrest =>
    intro e hw
    obtain ⟨t, ht, hchild, hflag⟩ := ihrest e0 hwrest
    refine ⟨t, ?_, hchild, hflag⟩
    simp only [allNodes, List.mem_cons, List.mem_append]
    right; right
    exact ht
  | case10 st cert h iss ch rest hci hcc e0 hwch ihch =>
    intro e hw
    obtain ⟨t, ht, hchild, hflag⟩ := ihch e0 hwch
    refine ⟨t, ?_, hchild, hflag⟩
    simp only [allNodes, List.mem_cons, List.mem_append]
    right; left
    exact ht

/-- Where the sanity-check throw of the self-signed partial prune comes
from: a non-self-signed root carrying a hash. -/
theorem partialPrune_error_spec {c : Cert} :
    ∀ (l : List X509Node) (e : HErr), partialPrune c l = Except.error e →
      ∃ n ∈ l, n.state.is_selfsigned = 0 ∧ n.hash.isSome = true := by
  intro l
  induction l using partialPrune.induct c with
  | case1 =>
    intro e hw
    rw [partialPrune] at hw
    exact Except.noConfusion hw
  | case2 n rest hsel hhs =>
    intro e hw
    exact ⟨n, List.mem_cons_self _ _, by simpa using hsel, hhs⟩
  | case3 n rest hsel hhs hchild kept0 moved0 hrec ih =>
    intro e hw
    rw [partialPrune] at hw
    simp only [hsel, hhs, hchild, hrec, if_true, Bool.false_eq_true, if_false] at hw
    exact Except.noConfusion hw
  | case4 n rest hsel hhs hchild e0 hrec ih =>
    intro e hw
    obtain ⟨m, hm, h1, h2⟩ := ih e0 hrec
    exact ⟨m, List.mem_cons_of_mem _ hm, h1, h2⟩
  | case5 n rest hsel hhs hchild kept0 moved0 hrec ih =>
    intro e hw
    rw [partialPrune] at hw
    simp only [hsel, hhs, hchild, hrec, if_true, Bool.false_eq_true, if_false] at hw
    exact Except.noConfusion hw
  | case6 n rest hsel hhs hchild e0 hrec ih =>
    intro e hw
    obtain ⟨m, hm, h1, h2⟩ := ih e0 hrec
    exact ⟨m, List.mem_cons_of_mem _ hm, h1, h2⟩
  | case7 n rest hsel kept0 moved0 hrec ih =>
    intro e hw
    rw [partialPrune] at hw
    simp only [hsel, hrec, Bool.false_eq_true, if_false] at hw
    exact Except.noConfusion hw
  | case8 n rest hsel e0 hrec ih =>
    intro e hw
    obtain ⟨m, hm, h1, h2⟩ := ih e0 hrec
    exact ⟨m, List.mem_cons_of_mem _ hm, h1, h2⟩

/-- Completeness of the prune search: when no node matches, the walk
reports no issuer. -/
theorem attachWalk_none_of_allfalse {orph : X509Node} :
    ∀ l : List X509Node,
      (∀ n ∈ allNodes l, ischild orph.certificate n.certificate = false) →
      attachWalk orph l = none := by
  intro l
  induction l using attachWalk.induct orph with
  | case1 =>
    intro _
    rw [attachWalk]
  | case2 st cert h iss ch rest hci =>
    intro hall
    exfalso
    have := hall (X509Node.mk st cert h iss ch) (by simp [allNodes])
    simp only [X509Node.certificate_mk] at this
    rw [this] at hci
    exact Bool.noConfusion hci
  | case3 st cert h iss ch rest hci ch' hwch ih =>
    intro hall
    exfalso
    have hch : attachWalk orph ch = none := by
      refine ih ?_
      intro n hn
      refine hall n ?_
      simp only [allNodes, List.mem_cons, List.mem_append]
      right; left; exact hn
    rw [hch] at hwch
    exact Option.noConfusion hwch
  | case4 st cert h iss ch rest hci hwch rest' hwrest ih1 ih2 =>
    intro hall
    exfalso
    have hrest : attachWalk orph rest = none := by
      refine ih2 ?_
      intro n hn
      refine hall n ?_
      simp only [allNodes, List.mem_cons, List.mem_append]
      right; right; exact hn
    rw [hrest] at hwrest
    exact Option.noConfusion hwrest
  | case5 st cert h iss ch rest hci hwch hwrest ih1 ih2 =>
    intro _
    rw [attachWalk]
    simp [hci, hwch, hwrest]

/-- Along a disciplined subtree the rank certifying acyclicity strictly
increases downwards. -/
theorem subtree_rank {rank : Cert → Nat} {S : List Cert}
    (hrank : ∀ a b, a ∈ S → b ∈ S → sfCert a = false → ischild a b = true →
      rank b < rank a) :
    ∀ (ch : List X509Node) (pc : Cert), pc ∈ S →
      (∀ x ∈ ch, ChildOK pc x) → FamOK ch →
      (∀ x ∈ allNodes ch, x.certificate ∈ S) →
      ∀ d ∈ allNodes ch, rank pc < rank d.certificate := by
  intro ch
  induction ch using allNodes.induct with
  | case1 =>
    intro pc _ _ _ _ d hd
    simp [allNodes] at hd
  | case2 st c h i ch2 rest ih1 ih2 =>
    intro pc hpc hchOK hfam hcS d hd
    have hhead : ChildOK pc (X509Node.mk st c h i ch2) :=
      hchOK _ (List.mem_cons_self _ _)
    obtain ⟨-, hsfc, -, -, hchild⟩ := hhead
    have hcmem : c ∈ S := by
      have := hcS (X509Node.mk st c h i ch2) (by simp [allNodes])
      simpa using this
    have hrankc : rank pc < rank c :=
      hrank c pc hcmem hpc (by simpa using hsfc) (by simpa using hchild)
    obtain ⟨hblock, hfch2, hfrest⟩ := (FamOK_cons st c h i ch2 rest).1 hfam
    simp only [allNodes, List.mem_cons, List.mem_append] at hd
    have hsub1 : ∀ x ∈ allNodes ch2, x.certificate ∈ S := by
      intro x hx
      refine hcS x ?_
      simp only [allNodes, List.mem_cons, List.mem_append]
      right; left; exact hx
    have hsub2 : ∀ x ∈ allNodes rest, x.certificate ∈ S := by
      intro x hx
      refine hcS x ?_
      simp only [allNodes, List.mem_cons, List.mem_append]
      right; right; exact hx
    rcases hd with rfl | hd | hd
    · simpa using hrankc
    · exact lt_trans hrankc (ih1 c hcmem hblock hfch2 hsub1 d hd)
    · exact ih2 pc hpc (fun x hx => hchOK x (List.mem_cons_of_mem _ hx)) hfrest hsub2 d hd

/-- Under an acyclic issuer relation the prune loop cannot hit the
self-subtree re-parenting (the C++ undefined behaviour) and always
completes. -/
theorem pruneGo_ok {rank : Cert → Nat} {S0 : List Cert}
    (hrank : ∀ a b, a ∈ S0 → b ∈ S0 → sfCert a = false → ischild a b = true →
      rank b < rank a) :
    ∀ (fuel : Nat) (done rest : List X509Node),
      fuel = rest.length →
      FamOK (done ++ rest) →
      (∀ r ∈ rest, RootOK r) →
      (forestCerts (done ++ rest)).Perm S0 →
      ∃ H, pruneGo fuel done rest = Except.ok H := by
  intro fuel
  induction fuel with
  | zero =>
    intro done rest hlen _ _ _
    have hnil : rest = [] := List.length_eq_zero.1 hlen.symm
    subst hnil
    exact ⟨done, by rw [pruneGo]⟩
  | succ fuel ih =>
    intro done rest hlen hfam hrest hperm
    cases rest with
    | nil => simp at hlen
    | cons r rest2 =>
      have hlen2 : fuel = rest2.length := by simpa using hlen
      obtain ⟨st, cert, hh, iss, ch⟩ := r
      obtain ⟨hfdone, hfcons⟩ := (FamOK_append done _).1 hfam
      obtain ⟨hchOK, hfch, hfrest2⟩ := (FamOK_cons st cert hh iss ch rest2).1 hfcons
      have hrootr := hrest _ (List.mem_cons_self _ _)
      have hrest2 : ∀ x ∈ rest2, RootOK x := fun x hx => hrest x (List.mem_cons_of_mem _ hx)
      by_cases hcond : (st.is_selfsigned == 0 && st.is_orphan == 0) = true
      · have hz : st.is_selfsigned = 0 := by
          have hc2 := hcond
          rw [Bool.and_eq_true] at hc2
          simpa using hc2.1
        have hsfr : sfCert cert = false := by
          have := sfCert_false_of_RootOK_selfsigned_zero hrootr
          simpa using this (by simpa using hz)
        have hchOK' : ∀ x ∈ (X509Node.mk st cert hh iss ch).children,
            ChildOK (X509Node.mk st cert hh iss ch).certificate x := by
          simpa using hchOK
        have hfch' : FamOK (X509Node.mk st cert hh iss ch).children := by simpa using hfch
        have h0' : (X509Node.mk st cert hh iss ch).state.is_selfsigned = 0 := by simpa using hz
        have h1' : sfCert (X509Node.mk st cert hh iss ch).certificate = false := by
          simpa using hsfr
        have hcertmem : cert ∈ S0 := by
          refine hperm.mem_iff.1 ?_
          rw [forestCerts_append, forestCerts_cons]
          simp
        cases had : attachWalk (X509Node.mk st cert hh iss ch) done with
        | some done' =>
          obtain ⟨hfdone', hsigs', hcerts'⟩ :=
            attachWalk_some_spec h0' h1' hchOK' hfch' done done' had hfdone
          have hperm' : (forestCerts (done' ++ rest2)).Perm S0 := by
            rw [forestCerts_append]
            refine List.Perm.trans (List.Perm.append_right (forestCerts rest2) hcerts') ?_
            refine List.Perm.trans (List.Perm.of_eq (List.append_assoc _ _ _)) ?_
            refine List.Perm.trans
              (List.perm_append_comm_assoc _ (forestCerts done) _) ?_
            refine List.Perm.trans (List.Perm.of_eq ?_) hperm
            rw [forestCerts_append, forestCerts_cons]
            simp
          obtain ⟨H, hH⟩ := ih done' rest2 hlen2
            (by rw [FamOK_append]; exact ⟨hfdone', hfrest2⟩) hrest2 hperm'
          refine ⟨H, ?_⟩
          rw [pruneGo]
          simp only [X509Node.state_mk]
          rw [if_pos hcond, had]
          exact hH
        | none =>
          have hsubS : ∀ x ∈ allNodes ch, x.certificate ∈ S0 := by
            intro x hx
            refine hperm.mem_iff.1 ?_
            rw [forestCerts_append, forestCerts_cons]
            simp only [List.mem_append, List.mem_cons]
            right; right; left
            exact List.mem_map.2 ⟨x, hx, rfl⟩
          have hselfnone : attachWalk (X509Node.mk st cert hh iss ch)
              (X509Node.mk st cert hh iss ch).children = none := by
            refine attachWalk_none_of_allfalse _ ?_
            intro d hd
            simp only [X509Node.certificate_mk, X509Node.children_mk] at hd ⊢
            cases hx : ischild cert d.certificate with
            | false => rfl
            | true =>
              exfalso
              have hdown := subtree_rank hrank ch cert hcertmem hchOK hfch hsubS d hd
              have hup := hrank cert d.certificate hcertmem (hsubS d hd) hsfr hx
              omega
          cases hr2 : attachWalk (X509Node.mk st cert hh iss ch) rest2 with
          | some rest2' =>
            obtain ⟨hfrest2', hsigs', hcerts'⟩ :=
              attachWalk_some_spec h0' h1' hchOK' hfch' rest2 rest2' hr2 hfrest2
            have hlen2' : fuel = rest2'.length := by
              rw [hlen2, attachWalk_length rest2 rest2' hr2]
            have hrest2' : ∀ x ∈ rest2', RootOK x := by
              intro x hx
              obtain ⟨y, hy, hsig⟩ := sig_witness hsigs' hx
              exact RootOK_of_topSig hsig (hrest2 y hy)
            have hperm' : (forestCerts (done ++ rest2')).Perm S0 := by
              rw [forestCerts_append]
              refine List.Perm.trans (List.Perm.append_left (forestCerts done) hcerts') ?_
              refine List.Perm.trans (List.Perm.of_eq ?_) hperm
              rw [forestCerts_append, forestCerts_cons]
              simp
            obtain ⟨H, hH⟩ := ih done rest2' hlen2'
              (by rw [FamOK_append]; exact ⟨hfdone, hfrest2'⟩) hrest2' hperm'
            refine ⟨H, ?_⟩
            rw [pruneGo]
            simp only [X509Node.state_mk]
            rw [if_pos hcond, had, hselfnone]
            simp only [Option.isSome_none, Bool.false_eq_true, if_false]
            rw [hr2]
            exact hH
          | none =>
            have hfam' : FamOK ((done ++ [X509Node.mk ⟨st.is_selfsigned, 1⟩ cert hh iss ch])
                ++ rest2) := by
              rw [List.append_assoc]
              rw [show ([X509Node.mk ⟨st.is_selfsigned, 1⟩ cert hh iss ch] ++ rest2 :
                  List X509Node)
                  = X509Node.mk ⟨st.is_selfsigned, 1⟩ cert hh iss ch :: rest2 from rfl]
              rw [FamOK_append]
              refine ⟨hfdone, ?_⟩
              rw [FamOK_cons]
              exact ⟨by simpa using hchOK, by simpa using hfch, hfrest2⟩
            have hperm' : (forestCerts ((done ++
                [X509Node.mk ⟨st.is_selfsigned, 1⟩ cert hh iss ch]) ++ rest2)).Perm S0 := by
              rw [List.append_assoc]
              rw [show ([X509Node.mk ⟨st.is_selfsigned, 1⟩ cert hh iss ch] ++ rest2 :
                  List X509Node)
                  = X509Node.mk ⟨st.is_selfsigned, 1⟩ cert hh iss ch :: rest2 from rfl]
              refine List.Perm.trans (List.Perm.of_eq ?_) hperm
              rw [forestCerts_append, forestCerts_cons, forestCerts_append, forestCerts_cons]
            obtain ⟨H, hH⟩ := ih (done ++ [X509Node.mk ⟨st.is_selfsigned, 1⟩ cert hh iss ch])
              rest2 hlen2 hfam' hrest2 hperm'
            refine ⟨H, ?_⟩
            rw [pruneGo]
            simp only [X509Node.state_mk]
            rw [if_pos hcond, had, hselfnone]
            simp only [Option.isSome_none, Bool.false_eq_true, if_false]
            rw [hr2]
            exact hH
      · have hfam' : FamOK ((done ++ [X509Node.mk st cert hh iss ch]) ++ rest2) := by
          rw [List.append_assoc]
          rw [show ([X509Node.mk st cert hh iss ch] ++ rest2 : List X509Node)
              = X509Node.mk st cert hh iss ch :: rest2 from rfl]
          exact hfam
        have hperm' : (forestCerts ((done ++ [X509Node.mk st cert hh iss ch]) ++ rest2)).Perm
            S0 := by
          rw [List.append_assoc]
          rw [show ([X509Node.mk st cert hh iss ch] ++ rest2 : List X509Node)
              = X509Node.mk st cert hh iss ch :: rest2 from rfl]
          exact hperm
        obtain ⟨H, hH⟩ := ih (done ++ [X509Node.mk st cert hh iss ch]) rest2 hlen2 hfam'
          hrest2 hperm'
        refine ⟨H, ?_⟩
        rw [pruneGo]
        simp only [X509Node.state_mk]
        rw [if_neg hcond]
        exact hH

/-- `insert` cannot throw when the inserted certificate's subject name
collides with no certificate already in the forest. -/
theorem insert_ok {c : Cert} {f : List X509Node}
    (hok : InsOK f)
    (hfresh : ∀ p ∈ forestCerts f, p.subject ≠ c.subject) :
    ∃ f', insert c f = Except.ok f' := by
  obtain ⟨hfam, hroots⟩ := hok
  by_cases hsf : sfCert c = false
  · rw [EvseSecurity.insert, if_pos hsf]
    cases hwk : insertWalk c f with
    | ok o =>
      cases o with
      | some h' => exact ⟨h', rfl⟩
      | none => exact ⟨f ++ [newOrphanNode c], rfl⟩
    | error e =>
      exfalso
      obtain ⟨t, ht, hchild, hflag⟩ := insertWalk_error_spec f e hwk
      have htc : t.certificate ∈ forestCerts f :=
        List.mem_map_of_mem X509Node.certificate ht
      have hsubj : t.certificate.issuer = c.subject := by
        simpa [ischild] using hchild
      have hcollide : sfCert t.certificate = true → False := by
        intro hsft
        have hss : t.certificate.issuer = t.certificate.subject := by
          simpa [sfCert] using hsft
        exact hfresh t.certificate htc (by rw [← hss, hsubj])
      rcases allNodes_cases f t ht with hroot | ⟨p, hp⟩
      · have hr := hroots t hroot
        have hsft : sfCert t.certificate = true := by
          cases hx : sfCert t.certificate with
          | true => rfl
          | false =>
            exfalso
            obtain ⟨hst, hha, -⟩ := hr.2 hx
            rcases hflag with hflag | hflag
            · rw [hst] at hflag
              simp at hflag
            · rw [hha] at hflag
              simp at hflag
        exact hcollide hsft
      · have hCO := hfam (t, p) hp
        obtain ⟨-, -, hiss, -, hich⟩ := hCO
        have hich' : t.certificate.issuer = p.certificate.subject := by
          simpa [ischild] using hich
        have hps : p.certificate.subject = c.subject := by
          rw [← hich', hsubj]
        have hpc : p.certificate ∈ forestCerts f :=
          List.mem_map_of_mem X509Node.certificate (famPairs_mem_allNodes f (t, p) hp).2
        exact hfresh p.certificate hpc hps
  · rw [EvseSecurity.insert, if_neg hsf]
    cases hwp : partialPrune c f with
    | ok pr =>
      obtain ⟨kept, moved⟩ := pr
      exact ⟨kept ++ [X509Node.mk ⟨1, 0⟩ c (some (certHashDataSelf c)) c moved], rfl⟩
    | error e =>
      exfalso
      obtain ⟨n, hn, hz, hhs⟩ := partialPrune_error_spec f e hwp
      have hr := hroots n hn
      have hsfn := sfCert_false_of_RootOK_selfsigned_zero hr hz
      have hnone := (hr.2 hsfn).2.1
      rw [hnone] at hhs
      simp at hhs

/-- Sequential insertion of pairwise subject-distinct certificates never
throws. -/
theorem insertSeq_ok :
    ∀ l : List Cert, l.Pairwise (fun a b => a.subject ≠ b.subject) →
      ∃ h, insertSeq l = Except.ok h := by
  intro l
  induction l using List.reverseRecOn with
  | nil =>
    intro _
    exact ⟨[], rfl⟩
  | append_singleton l2 c ih =>
    intro hpw
    have hpw2 : l2.Pairwise (fun a b => a.subject ≠ b.subject) :=
      (List.pairwise_append.1 hpw).1
    have hfreshl2 : ∀ a ∈ l2, a.subject ≠ c.subject := by
      intro a ha
      exact (List.pairwise_append.1 hpw).2.2 a ha c (List.mem_singleton_self c)
    obtain ⟨h0, hh0⟩ := ih hpw2
    obtain ⟨hok0, hperm0⟩ := insertSeq_spec l2 h0 hh0
    have hfresh : ∀ p ∈ forestCerts h0, p.subject ≠ c.subject := by
      intro p hp
      exact hfreshl2 p (hperm0.mem_iff.1 hp)
    obtain ⟨h1, hh1⟩ := insert_ok hok0 hfresh
    refine ⟨h1, ?_⟩
    rw [insertSeq, List.foldlM_append]
    rw [show List.foldlM (fun h c => insert c h) ([] : List X509Node) l2 = insertSeq l2
      from rfl, hh0]
    simp [Bind.bind, Except.bind, List.foldlM, hh1, Pure.pure, Except.pure]

/-- Top-level prune: completes under an acyclic issuer relation, and its
result keeps families disciplined, keeps the certificate multiset, and
(when it actually ran) leaves only disciplined processed roots. -/
theorem prune_ok {rank : Cert → Nat} {h0 : List X509Node}
    (hok : InsOK h0)
    (hrank : ∀ a b, a ∈ forestCerts h0 → b ∈ forestCerts h0 → sfCert a = false →
      ischild a b = true → rank b < rank a) :
    ∃ H, prune h0 = Except.ok H := by
  rw [prune]
  by_cases hlen : h0.length ≤ 1
  · rw [if_pos hlen]
    exact ⟨h0, rfl⟩
  · rw [if_neg hlen]
    exact pruneGo_ok hrank h0.length [] h0 rfl (by simpa using hok.1) hok.2
      (by rw [List.nil_append])

/-- What a completed prune guarantees. -/
theorem prune_spec {h0 H : List X509Node} (hw : prune h0 = Except.ok H)
    (hok : InsOK h0) :
    FamOK H ∧ (forestCerts H).Perm (forestCerts h0) ∧
    (2 ≤ h0.length → ∀ r ∈ H, DoneRoot (forestCerts h0) r) ∧
    (h0.length ≤ 1 → H = h0) := by
  rw [prune] at hw
  by_cases hlen : h0.length ≤ 1
  · rw [if_pos hlen] at hw
    have hH : H = h0 := (Except.ok.inj hw).symm
    subst hH
    exact ⟨hok.1, List.Perm.refl _, fun h2 => absurd hlen (by omega), fun _ => rfl⟩
  · rw [if_neg hlen] at hw
    obtain ⟨hfam, hdone, hperm⟩ := pruneGo_spec (forestCerts h0) h0.length [] h0 H rfl hw
      (by simpa using hok.1) (by simp) hok.2 (by rw [List.nil_append])
    exact ⟨hfam, hperm, fun _ => hdone, fun hcon => absurd hcon (by omega)⟩

/-! ### Claims about X509Wrapper -/

/-- C6: for every certificate object, `is_child` against the same object
is false (in particular for a self-signed certificate), and for every
pair of distinct certificate objects the result is delegated to the
provider's parent-child check `x509_is_child`. -/
theorem C6_is_child_self_false_distinct_delegates :
    (∀ w : X509Wrapper, w.is_child w = false) ∧
    (∀ w : X509Wrapper, w.is_selfsigned = true → w.is_child w = false) ∧
    (∀ a b : X509Wrapper, a.addr ≠ b.addr →
      a.is_child b = ischild a.cert b.cert) := by
  refine ⟨fun w => ?_, fun w _ => ?_, fun a b hab => ?_⟩
  · simp [X509Wrapper.is_child]
  · simp [X509Wrapper.is_child]
  · simp [X509Wrapper.is_child, hab]

/-- C6 witness: evaluation at concrete objects. -/
theorem C6_is_child_self_false_distinct_delegates_witness :
    (X509Wrapper.mk 0 ⟨1, 1, 2, 3⟩ 0 0).is_selfsigned = true ∧
    (X509Wrapper.mk 0 ⟨1, 1, 2, 3⟩ 0 0).is_child (X509Wrapper.mk 0 ⟨1, 1, 2, 3⟩ 0 0) = false ∧
    (X509Wrapper.mk 0 ⟨1, 1, 2, 3⟩ 0 0).is_child (X509Wrapper.mk 1 ⟨1, 1, 2, 3⟩ 0 0) =
      ischild ⟨1, 1, 2, 3⟩ ⟨1, 1, 2, 3⟩ := by
  refine ⟨by decide,
    C6_is_child_self_false_distinct_delegates.2.1 _ (by decide),
    C6_is_child_self_false_distinct_delegates.2.2 _ _ (by decide)⟩

/-- C7: constructing an `X509Wrapper` from a string whose parse yields
more than one certificate (more than one PEM block) fails with
`CertificateLoadError`, producing no wrapper object. -/
theorem C7_multi_pem_load_fails (addr : Nat) (loaded : List Cert) (vin vto : Int)
    (h : 1 < loaded.length) :
    X509Wrapper.fromData addr loaded vin vto =
      Except.error X509Wrapper.WrapperError.CertificateLoadError := by
  match loaded, h with
  | c₁ :: c₂ :: rest, _ => rfl

/-- C7 witness: a two-certificate parse result is rejected. -/
theorem C7_multi_pem_load_fails_witness :
    X509Wrapper.fromData 0 [⟨1, 1, 2, 3⟩, ⟨4, 1, 5, 6⟩] 0 0 =
      Except.error X509Wrapper.WrapperError.CertificateLoadError :=
  C7_multi_pem_load_fails 0 [⟨1, 1, 2, 3⟩, ⟨4, 1, 5, 6⟩] 0 0 (by decide)

/-- C8: `get_issuer_key_hash` returns exactly `get_key_hash` on a
self-signed certificate and raises an error (std::logic_error) on a
non-self-signed certificate. -/
theorem C8_issuer_key_hash (w : X509Wrapper) :
    (w.is_selfsigned = true →
      w.get_issuer_key_hash = Except.ok w.get_key_hash) ∧
    (w.is_selfsigned = false →
      w.get_issuer_key_hash = Except.error X509Wrapper.WrapperError.LogicError) := by
  constructor
  · intro h; simp [X509Wrapper.get_issuer_key_hash, h]
  · intro h; simp [X509Wrapper.get_issuer_key_hash, h]

/-- C8 witness: both branches evaluated at concrete certificates. -/
theorem C8_issuer_key_hash_witness :
    (X509Wrapper.mk 0 ⟨1, 1, 2, 3⟩ 0 0).get_issuer_key_hash =
      Except.ok (X509Wrapper.mk 0 ⟨1, 1, 2, 3⟩ 0 0).get_key_hash ∧
    (X509Wrapper.mk 0 ⟨1, 9, 2, 3⟩ 0 0).get_issuer_key_hash =
      Except.error X509Wrapper.WrapperError.LogicError :=
  ⟨(C8_issuer_key_hash _).1 (by decide), (C8_issuer_key_hash _).2 (by decide)⟩

/-- C9: `is_valid` holds iff `valid_in ≤ 0` and `valid_to ≥ 0`,
`is_expired` holds iff `valid_to < 0`, hence `is_expired` implies
`¬ is_valid`. -/
theorem C9_validity_windows (w : X509Wrapper) :
    (w.is_valid = true ↔ w.valid_in ≤ 0 ∧ w.valid_to ≥ 0) ∧
    (w.is_expired = true ↔ w.valid_to < 0) ∧
    (w.is_expired = true → w.is_valid = false) := by
  refine ⟨?_, ?_, ?_⟩
  · simp [X509Wrapper.is_valid, X509Wrapper.get_valid_in, X509Wrapper.get_valid_to]
  · simp [X509Wrapper.is_expired, X509Wrapper.get_valid_to]
  · intro h
    simp only [X509Wrapper.is_expired, X509Wrapper.get_valid_to, decide_eq_true_eq] at h
    simp [X509Wrapper.is_valid, X509Wrapper.get_valid_in, X509Wrapper.get_valid_to]
    intro _
    omega

/-! ### C1 -/

/-- C1 counterexample: two permutations of the same certificate set build
hierarchies with different parent-child relations.  `midA` and `midB`
share a subject name (a cross-signed intermediate), so the leaf is
attached to whichever of the two was inserted first; both runs succeed
and produce the single edge (leaf, midA) resp. (leaf, midB). -/
theorem C1_counterexample :
    ([leafC, midB, midA].Perm [leafC, midA, midB]) ∧
    (buildHierarchy [leafC, midB, midA]).1.map forestEdges = Except.ok [(leafC, midA)] ∧
    (buildHierarchy [leafC, midA, midB]).1.map forestEdges = Except.ok [(leafC, midB)] ∧
    midA ≠ midB := by
  refine ⟨?_, ?_, ?_, by decide⟩
  · decide
  · simp [buildHierarchy, buildLoop, EvseSecurity.insert, insertWalk, partialPrune, prune,
      pruneGo, attachWalk, newOrphanNode, ischild, sfCert, forestEdges, famPairs,
      Except.map, certHashDataIssuer, leafC, midA, midB]
  · simp [buildHierarchy, buildLoop, EvseSecurity.insert, insertWalk, partialPrune, prune,
      pruneGo, attachWalk, newOrphanNode, ischild, sfCert, forestEdges, famPairs,
      Except.map, certHashDataIssuer, leafC, midA, midB]

/-! ### C2 -/

/-- C2 counterexample: for the input set holding the single
non-self-signed certificate `loneCert` (whose issuer is not in the set),
`build_hierarchy` succeeds but `prune` returns immediately on a root
list of length ≤ 1, so the lone root keeps `is_permanent_orphan = 0`
where the claim requires `1` (its hash is `NONE` as claimed). -/
theorem C2_counterexample :
    sfCert loneCert = false ∧
    ischild loneCert loneCert = false ∧
    (buildHierarchy [loneCert]).1.map (fun f => f.map (fun n => n.state.is_orphan)) =
      Except.ok [0] ∧
    (buildHierarchy [loneCert]).1.map (fun f => f.map X509Node.hash) =
      Except.ok [none] := by
  refine ⟨by decide, by decide, ?_, ?_⟩
  · simp [buildHierarchy, buildLoop, EvseSecurity.insert, insertWalk, prune, newOrphanNode,
      ischild, sfCert, Except.map, loneCert]
  · simp [buildHierarchy, buildLoop, EvseSecurity.insert, insertWalk, prune, newOrphanNode,
      ischild, sfCert, Except.map, loneCert]

/-! ### C3 -/

/-- C3 counterexample: inserting the self-signed `rootCA` and then the
individually well-formed `crossSigned` (same subject name, outside
issuer) makes the walk of `insert` find the self-signed root as a child
of the inserted certificate — `X509_check_issued` matches the root's
issuer name against the cross-signed subject — and the first
sanity-check branch throws `InvalidStateException`. -/
theorem C3_counterexample :
    sfCert rootCA = true ∧
    sfCert crossSigned = false ∧
    rootCA ≠ crossSigned ∧
    (buildHierarchy [crossSigned, rootCA]).1 = Except.error HErr.invalidState := by
  refine ⟨by decide, by decide, by decide, ?_⟩
  simp [buildHierarchy, buildLoop, EvseSecurity.insert, insertWalk, partialPrune, prune,
    pruneGo, newOrphanNode, ischild, sfCert, rootCA, crossSigned]

/-! ### C4 -/

/-- C4: `get_certificate_hash` reads the uninitialized local
`bool found;` on the not-found path.  At a hierarchy holding only the
self-signed `rootCA` and the query `loneCert` (not self-signed, not in
the hierarchy), the claimed behaviour — return `false` and leave the
output hash unmodified — is obtained only when the indeterminate initial
value happens to be `false`; when it is `true` the function returns
`true` together with the indeterminate default-constructed local hash. -/
theorem C4_get_certificate_hash_uninitialized_found :
    (buildHierarchy [rootCA]).1 =
      Except.ok [X509Node.mk ⟨1, 0⟩ rootCA (some (certHashDataSelf rootCA)) rootCA []] ∧
    sfCert loneCert = false ∧
    findStoredHash loneCert
      [X509Node.mk ⟨1, 0⟩ rootCA (some (certHashDataSelf rootCA)) rootCA []] = none ∧
    get_certificate_hash
      [X509Node.mk ⟨1, 0⟩ rootCA (some (certHashDataSelf rootCA)) rootCA []]
      loneCert true ⟨HashAlgorithm.SHA256, 77, 77, 77⟩ ⟨HashAlgorithm.SHA256, 5, 5, 5⟩ =
      (true, ⟨HashAlgorithm.SHA256, 77, 77, 77⟩) ∧
    get_certificate_hash
      [X509Node.mk ⟨1, 0⟩ rootCA (some (certHashDataSelf rootCA)) rootCA []]
      loneCert false ⟨HashAlgorithm.SHA256, 77, 77, 77⟩ ⟨HashAlgorithm.SHA256, 5, 5, 5⟩ =
      (false, ⟨HashAlgorithm.SHA256, 5, 5, 5⟩) := by
  refine ⟨?_, by decide, ?_, ?_, ?_⟩
  · simp [buildHierarchy, buildLoop, EvseSecurity.insert, insertWalk, partialPrune, prune,
      newOrphanNode, ischild, sfCert, rootCA, certHashDataSelf]
  · simp [findStoredHash, rootCA, loneCert]
  · simp [get_certificate_hash, findStoredHash, rootCA, loneCert, sfCert]
  · simp [get_certificate_hash, findStoredHash, rootCA, loneCert, sfCert]

/-! ### C10 -/

/-- The consuming loop, related to front-to-back sequential insertion of
the reversed vector. -/
theorem buildLoop_spec (v : List Cert) :
    ∀ h : List X509Node,
      (buildLoop v.length h v).1 = v.reverse.foldlM (fun h c => insert c h) h ∧
      (∀ res, v.reverse.foldlM (fun h c => insert c h) h = Except.ok res →
        (buildLoop v.length h v).2 = []) := by
  induction v using List.reverseRecOn with
  | nil => intro h; exact ⟨rfl, fun _ _ => rfl⟩
  | append_singleton vs c ih =>
    intro h
    have hlen : (vs ++ [c]).length = vs.length + 1 := by simp
    rw [hlen]
    have hrev : (vs ++ [c]).reverse = c :: vs.reverse := by simp
    rw [hrev, List.foldlM_cons]
    simp only [buildLoop, List.getLast?_concat, List.dropLast_concat]
    cases hi : insert c h with
    | ok h' =>
      obtain ⟨ih1, ih2⟩ := ih h'
      refine ⟨?_, ?_⟩
      · simpa using ih1
      · intro res hres
        simp only [hi] at hres ⊢
        exact ih2 res (by simpa using hres)
    | error e =>
      refine ⟨?_, ?_⟩
      · rfl
      · intro res hres
        exact Except.noConfusion hres

/-- C10: `build_hierarchy` consumes its input vector: on every run whose
insertions all complete, the caller's vector is left empty, and in all
cases the hierarchy handed to `prune` is the one obtained by inserting
the certificates taken from the back of the vector, i.e. in reverse
order of the caller's ordering. -/
theorem buildHierarchy_fst_eq (v : List Cert) :
    (buildHierarchy v).1 = (insertSeq v.reverse).bind prune := by
  obtain ⟨h1, h2⟩ := buildLoop_spec v []
  show (buildHierarchy v).1 = _
  unfold buildHierarchy
  rcases hb : buildLoop v.length [] v with ⟨r, v'⟩
  rw [hb] at h1
  cases r with
  | ok hh =>
    simp only at h1
    simp [insertSeq, ← h1, Except.bind]
  | error e =>
    simp only at h1
    simp [insertSeq, ← h1, Except.bind]

theorem buildHierarchy_snd_eq (v : List Cert) :
    ∀ res, insertSeq v.reverse = Except.ok res → (buildHierarchy v).2 = [] := by
  obtain ⟨h1, h2⟩ := buildLoop_spec v []
  intro res hres
  have h2' := h2 res (by simpa [insertSeq] using hres)
  unfold buildHierarchy
  rcases hb : buildLoop v.length [] v with ⟨r, v'⟩
  rw [hb] at h2'
  cases r <;> simpa using h2'

/-- If `build_hierarchy` produced a hierarchy, the insertion loop and the
prune each completed. -/
theorem buildHierarchy_ok_split {v : List Cert} {H : List X509Node}
    (hw : (buildHierarchy v).1 = Except.ok H) :
    ∃ h0, insertSeq v.reverse = Except.ok h0 ∧ prune h0 = Except.ok H := by
  have he := buildHierarchy_fst_eq v
  rw [hw] at he
  cases hs : insertSeq v.reverse with
  | error e =>
    rw [hs] at he
    exact Except.noConfusion he
  | ok h0 =>
    rw [hs] at he
    exact ⟨h0, rfl, he.symm⟩

theorem C10_build_hierarchy_consumes_vector (v : List Cert) :
    (buildHierarchy v).1 = (insertSeq v.reverse).bind prune ∧
    (∀ res, insertSeq v.reverse = Except.ok res → (buildHierarchy v).2 = []) :=
  ⟨buildHierarchy_fst_eq v, buildHierarchy_snd_eq v⟩

/-- C10 witness: a concrete one-certificate vector is emptied by
`build_hierarchy`, and the consumption order theorem applies to it. -/
theorem C10_build_hierarchy_consumes_vector_witness :
    (buildHierarchy [rootCA]).2 = [] :=
  (C10_build_hierarchy_consumes_vector [rootCA]).2
    [X509Node.mk ⟨1, 0⟩ rootCA (some (certHashDataSelf rootCA)) rootCA []]
    (by simp [insertSeq, EvseSecurity.insert, insertWalk, partialPrune, newOrphanNode,
      ischild, sfCert, rootCA, certHashDataSelf, List.foldlM])

/-! ### Canonical-shape lemmas under distinct subject names and an
acyclic issuer relation -/

/-- Pairwise distinct subject names make the subject injective on the
members of the list. -/
theorem subject_inj_of_pairwise {v : List Cert}
    (hpw : v.Pairwise (fun a b => a.subject ≠ b.subject)) :
    ∀ x ∈ v, ∀ y ∈ v, x.subject = y.subject → x = y := by
  induction v with
  | nil =>
    intro x hx
    cases hx
  | cons a l ih =>
    intro x hx y hy hxy
    rcases List.mem_cons.1 hx with hxa | hx
    · rcases List.mem_cons.1 hy with hya | hy
      · rw [hxa, hya]
      · rw [hxa] at hxy ⊢
        exact absurd hxy ((List.pairwise_cons.1 hpw).1 y hy)
    · rcases List.mem_cons.1 hy with hya | hy
      · rw [hya] at hxy ⊢
        exact absurd hxy.symm ((List.pairwise_cons.1 hpw).1 x hx)
      · exact ih (List.pairwise_cons.1 hpw).2 x hx y hy hxy

/-- Under pairwise distinct subject names and an acyclic issuer relation
(witnessed by a rank function), `build_hierarchy` runs to completion:
the insertions and the prune succeed and the input vector is emptied. -/
theorem buildHierarchy_total (v : List Cert) (rank : Cert → Nat)
    (hpw : v.Pairwise (fun a b => a.subject ≠ b.subject))
    (hrank : ∀ a b, a ∈ v → b ∈ v → sfCert a = false → ischild a b = true →
      rank b < rank a) :
    ∃ h0 H, insertSeq v.reverse = Except.ok h0 ∧ prune h0 = Except.ok H ∧
      buildHierarchy v = (Except.ok H, []) := by
  have hpwr : v.reverse.Pairwise (fun a b => a.subject ≠ b.subject) := by
    rw [List.pairwise_reverse]
    exact hpw.imp (fun h => h.symm)
  obtain ⟨h0, hh0⟩ := insertSeq_ok v.reverse hpwr
  obtain ⟨hok0, hperm0⟩ := insertSeq_spec v.reverse h0 hh0
  have hmem : ∀ a, a ∈ forestCerts h0 → a ∈ v := by
    intro a ha
    exact List.mem_reverse.1 (hperm0.mem_iff.1 ha)
  obtain ⟨H, hH⟩ := prune_ok hok0
    (fun a b ha hb hsf hch => hrank a b (hmem a ha) (hmem b hb) hsf hch)
  have h1 : (buildHierarchy v).1 = Except.ok H := by
    rw [buildHierarchy_fst_eq, hh0]
    simpa [Except.bind] using hH
  have h2 : (buildHierarchy v).2 = [] := buildHierarchy_snd_eq v h0 hh0
  refine ⟨h0, H, hh0, hH, ?_⟩
  rw [← h1, ← h2]

/-- A singleton root list (the case prune returns early on) cannot hide
an issuer of its own non-self-signed root: the root is not its own
issuer, and a rank argument excludes every certificate of its subtree. -/
theorem root_no_parent_of_singleton {rank : Cert → Nat} {S : List Cert}
    (hrank : ∀ a b, a ∈ S → b ∈ S → sfCert a = false → ischild a b = true →
      rank b < rank a) :
    ∀ r : X509Node, FamOK [r] →
      (∀ a ∈ forestCerts [r], a ∈ S) →
      sfCert r.certificate = false →
      ∀ p ∈ forestCerts [r], ischild r.certificate p = false := by
  intro r
  rcases r with ⟨st, c, h, i, ch⟩
  intro hfam hcS hsf p hp
  have hfc : forestCerts [X509Node.mk st c h i ch] =
      c :: (allNodes ch).map X509Node.certificate := by
    simp [forestCerts, allNodes]
  rw [hfc] at hp
  have hcmem : c ∈ S := hcS c (by rw [hfc]; exact List.mem_cons_self _ _)
  have hallS : ∀ x ∈ allNodes ch, x.certificate ∈ S := by
    intro x hx
    exact hcS _ (by
      rw [hfc]
      exact List.mem_cons_of_mem _ (List.mem_map.2 ⟨x, hx, rfl⟩))
  rcases List.mem_cons.1 hp with rfl | hp
  · simpa [ischild_self] using hsf
  · obtain ⟨d, hd, rfl⟩ := List.mem_map.1 hp
    have hch : ∀ x ∈ ch, ChildOK c x := by
      intro x hx
      have hmem : (x, X509Node.mk st c h i ch) ∈
          famPairs [X509Node.mk st c h i ch] := by
        rw [famPairs_cons]
        exact List.mem_append.2 (Or.inl (List.mem_map.2 ⟨x, hx, rfl⟩))
      simpa using hfam _ hmem
    have hfamch : FamOK ch := by
      intro q hq
      apply hfam
      rw [famPairs_cons]
      exact List.mem_append.2 (Or.inr (List.mem_append.2 (Or.inl hq)))
    cases hcd : ischild c d.certificate with
    | false => simpa using hcd
    | true =>
      exfalso
      have h1 : rank c < rank d.certificate :=
        subtree_rank hrank ch c hcmem hch hfamch hallS d hd
      have h2 : rank d.certificate < rank c :=
        hrank c d.certificate hcmem (hallS d hd) (by simpa using hsf) hcd
      omega

/-- Canonical shape of the built forest under pairwise distinct subject
names and an acyclic issuer relation: the build succeeds, the roots are
exactly the input certificates that are self-signed or issued by no
input certificate, and the parent-child relation is exactly the
provider's child relation restricted to non-self-signed children. -/
theorem buildHierarchy_canonical (v : List Cert) (rank : Cert → Nat)
    (hpw : v.Pairwise (fun a b => a.subject ≠ b.subject))
    (hrank : ∀ a b, a ∈ v → b ∈ v → sfCert a = false → ischild a b = true →
      rank b < rank a) :
    ∃ H, buildHierarchy v = (Except.ok H, []) ∧
      (∀ a, a ∈ rootCerts H ↔
        a ∈ v ∧ (sfCert a = true ∨ ∀ p ∈ v, ischild a p = false)) ∧
      (∀ e : Cert × Cert, e ∈ forestEdges H ↔
        e.1 ∈ v ∧ e.2 ∈ v ∧ sfCert e.1 = false ∧ ischild e.1 e.2 = true) := by
  obtain ⟨h0, H, hins, hpr, hb⟩ := buildHierarchy_total v rank hpw hrank
  obtain ⟨hok0, hperm0⟩ := insertSeq_spec v.reverse h0 hins
  obtain ⟨hfamH, hpermH, hdone, hsmall⟩ := prune_spec hpr hok0
  have hinj := subject_inj_of_pairwise hpw
  have hmemv : ∀ a, a ∈ forestCerts H ↔ a ∈ v := by
    intro a
    rw [hpermH.mem_iff, hperm0.mem_iff, List.mem_reverse]
  have hnopar : ∀ r ∈ H, sfCert r.certificate = false →
      ∀ p ∈ v, ischild r.certificate p = false := by
    intro r hr hsfr p hp
    by_cases hlen : 2 ≤ h0.length
    · rcases hdone hlen r hr with ⟨hsft, -, -, -⟩ | ⟨-, -, -, -, hnp⟩
      · rw [hsfr] at hsft
        exact Bool.noConfusion hsft
      · exact hnp p (by rw [hperm0.mem_iff, List.mem_reverse]; exact hp)
    · have hH0 : H = h0 := hsmall (by omega)
      have hlen1 : H.length ≤ 1 := by
        rw [hH0]
        omega
      have hHr : H = [r] := by
        cases H with
        | nil => cases hr
        | cons x l =>
          cases l with
          | nil =>
            rcases List.mem_singleton.1 hr with rfl
            rfl
          | cons y m => simp at hlen1
      have hfam1 : FamOK [r] := by
        rw [← hHr]
        exact hfamH
      have hcS : ∀ a ∈ forestCerts [r], a ∈ v := by
        intro a ha
        rw [← hHr] at ha
        exact (hmemv a).1 ha
      have hpF : p ∈ forestCerts [r] := by
        rw [← hHr]
        exact (hmemv p).2 hp
      exact root_no_parent_of_singleton hrank r hfam1 hcS hsfr p hpF
  refine ⟨H, hb, ?_, ?_⟩
  · intro a
    constructor
    · intro ha
      obtain ⟨r, hr, rfl⟩ := List.mem_map.1 ha
      have hav : r.certificate ∈ v := by
        rw [← hmemv]
        exact List.mem_map.2 ⟨r, mem_allNodes_of_mem H r hr, rfl⟩
      refine ⟨hav, ?_⟩
      cases hsf : sfCert r.certificate with
      | true => exact Or.inl rfl
      | false => exact Or.inr (hnopar r hr hsf)
    · rintro ⟨hav, hcond⟩
      have haF : a ∈ forestCerts H := (hmemv a).2 hav
      obtain ⟨n, hn, rfl⟩ := List.mem_map.1 haF
      rcases allNodes_cases H n hn with hroot | ⟨p, hp⟩
      · exact List.mem_map.2 ⟨n, hroot, rfl⟩
      · exfalso
        obtain ⟨-, hsf, -, -, hich⟩ := hfamH (n, p) hp
        have hpv : p.certificate ∈ v := by
          rw [← hmemv]
          exact List.mem_map.2 ⟨p, (famPairs_mem_allNodes H (n, p) hp).2, rfl⟩
        rcases hcond with hsft | hnp
        · rw [hsf] at hsft
          exact Bool.noConfusion hsft
        · rw [hnp p.certificate hpv] at hich
          exact Bool.noConfusion hich
  · intro e
    constructor
    · intro he
      obtain ⟨q, hq, rfl⟩ := List.mem_map.1 he
      obtain ⟨-, hsf, -, -, hich⟩ := hfamH q hq
      obtain ⟨h1, h2⟩ := famPairs_mem_allNodes H q hq
      refine ⟨?_, ?_, hsf, hich⟩
      · rw [← hmemv]
        exact List.mem_map.2 ⟨q.1, h1, rfl⟩
      · rw [← hmemv]
        exact List.mem_map.2 ⟨q.2, h2, rfl⟩
    · rintro ⟨h1v, h2v, hsf, hich⟩
      have h1F : e.1 ∈ forestCerts H := (hmemv e.1).2 h1v
      obtain ⟨n, hn, hcert⟩ := List.mem_map.1 h1F
      rcases allNodes_cases H n hn with hroot | ⟨p, hp⟩
      · exfalso
        have hz := hnopar n hroot (by rw [hcert]; exact hsf) e.2 h2v
        rw [hcert, hich] at hz
        exact Bool.noConfusion hz
      · obtain ⟨-, -, -, -, hich2⟩ := hfamH (n, p) hp
        have hpv : p.certificate ∈ v := by
          rw [← hmemv]
          exact List.mem_map.2 ⟨p, (famPairs_mem_allNodes H (n, p) hp).2, rfl⟩
        have ha : e.1.issuer = e.2.subject := by
          simpa [ischild] using hich
        have hb2 : e.1.issuer = p.certificate.subject := by
          have := hich2
          rw [hcert] at this
          simpa [ischild] using this
        have heq : e.2 = p.certificate :=
          hinj e.2 h2v p.certificate hpv (ha.symm.trans hb2)
        refine List.mem_map.2 ⟨(n, p), hp, ?_⟩
        rw [show (n, p).1 = n from rfl, show (n, p).2 = p from rfl, hcert, ← heq]

/-! ### C5 -/

/-- C5: in every hierarchy produced by `build_hierarchy`, no self-signed
certificate appears as a non-root node, and every non-root node's issuer
reference equals its parent node's certificate and satisfies the parent
relation: the node's certificate is a child of its issuer's (= its
parent's) certificate. -/
theorem C5_nonroot_discipline (v : List Cert) (H : List X509Node)
    (hw : (buildHierarchy v).1 = Except.ok H) :
    ∀ q ∈ famPairs H,
      sfCert q.1.certificate = false ∧
      q.1.issuer = q.2.certificate ∧
      ischild q.1.certificate q.1.issuer = true ∧
      ischild q.1.certificate q.2.certificate = true := by
  obtain ⟨h0, hins, hpr⟩ := buildHierarchy_ok_split hw
  obtain ⟨hok0, -⟩ := insertSeq_spec v.reverse h0 hins
  obtain ⟨hfamH, -, -, -⟩ := prune_spec hpr hok0
  intro q hq
  obtain ⟨-, hsf, hiss, -, hich⟩ := hfamH q hq
  refine ⟨hsf, hiss, ?_, hich⟩
  rw [hiss]
  exact hich

/-- C5 witness: the two-certificate chain `[leafC, rootCA]` builds the
single family pair (`leafNodeC`, `rootNodeCA`), which the theorem
applies to. -/
theorem C5_nonroot_discipline_witness :
    sfCert leafNodeC.certificate = false ∧
    leafNodeC.issuer = rootNodeCA.certificate ∧
    ischild leafNodeC.certificate leafNodeC.issuer = true ∧
    ischild leafNodeC.certificate rootNodeCA.certificate = true :=
  C5_nonroot_discipline [leafC, rootCA] [rootNodeCA]
    (by simp [buildHierarchy, buildLoop, EvseSecurity.insert, insertWalk, partialPrune,
      prune, pruneGo, newOrphanNode, ischild, sfCert, leafC, rootCA, rootNodeCA,
      leafNodeC, certHashDataSelf, certHashDataIssuer])
    (leafNodeC, rootNodeCA)
    (by simp [famPairs, rootNodeCA, leafNodeC])

/-! ### C2 (amended) -/

/-- C2 (amended): when the post-insertion root list has at least two
entries, every root of the pruned hierarchy that is neither self-signed
nor issued by any input certificate is marked `is_permanent_orphan = 1`
and carries no hash.  (The counterexample `C2_counterexample` shows the
length hypothesis is needed: prune returns immediately on a root list of
length ≤ 1.) -/
theorem C2_amended_permanent_orphans (v : List Cert) (h0 H : List X509Node)
    (hins : insertSeq v.reverse = Except.ok h0)
    (hlen : 2 ≤ h0.length)
    (hpr : prune h0 = Except.ok H)
    (r : X509Node) (hr : r ∈ H)
    (hsfr : sfCert r.certificate = false)
    (_hnoiss : ∀ c ∈ v, ischild r.certificate c = false) :
    (buildHierarchy v).1 = Except.ok H ∧
    r.state.is_orphan = 1 ∧ r.hash = none := by
  have hb : (buildHierarchy v).1 = Except.ok H := by
    rw [buildHierarchy_fst_eq, hins]
    simpa [Except.bind] using hpr
  obtain ⟨hok0, -⟩ := insertSeq_spec v.reverse h0 hins
  obtain ⟨-, -, hdone, -⟩ := prune_spec hpr hok0
  rcases hdone hlen r hr with ⟨hsft, -, -, -⟩ | ⟨-, hst, hh, -, -⟩
  · rw [hsfr] at hsft
    exact Bool.noConfusion hsft
  · exact ⟨hb, by rw [hst], hh⟩

/-- C2 amended witness: two unrelated non-self-signed certificates; both
inserted roots are marked permanent orphans with no hash. -/
theorem C2_amended_permanent_orphans_witness :
    (buildHierarchy [loneCert, loneCertB]).1 = Except.ok
      [X509Node.mk ⟨0, 1⟩ loneCertB none loneCertB [],
       X509Node.mk ⟨0, 1⟩ loneCert none loneCert []] ∧
    (X509Node.mk ⟨0, 1⟩ loneCert none loneCert []).state.is_orphan = 1 ∧
    (X509Node.mk ⟨0, 1⟩ loneCert none loneCert []).hash = none :=
  C2_amended_permanent_orphans [loneCert, loneCertB]
    [X509Node.mk ⟨0, 0⟩ loneCertB none loneCertB [],
     X509Node.mk ⟨0, 0⟩ loneCert none loneCert []]
    [X509Node.mk ⟨0, 1⟩ loneCertB none loneCertB [],
     X509Node.mk ⟨0, 1⟩ loneCert none loneCert []]
    (by simp [insertSeq, List.foldlM, EvseSecurity.insert, insertWalk, newOrphanNode,
      ischild, sfCert, loneCert, loneCertB, Pure.pure, Except.pure, Bind.bind,
      Except.bind])
    (by simp)
    (by simp [prune, pruneGo, attachWalk, ischild, loneCert, loneCertB])
    (X509Node.mk ⟨0, 1⟩ loneCert none loneCert [])
    (by simp)
    (by decide)
    (by decide)

/-! ### C3 (amended) -/

/-- C3 (amended): `build_hierarchy` never throws `InvalidStateException`
provided the input certificates have pairwise distinct subject names and
the issuer relation on the input is acyclic (witnessed by a rank
function): under those hypotheses both sanity-check branches of `insert`
are unreachable and the build completes.  (The counterexample
`C3_counterexample` shows the subject-distinctness hypothesis is needed:
a cross-signed duplicate of an inserted self-signed root reaches the
first branch.) -/
theorem C3_amended_no_throw (v : List Cert) (rank : Cert → Nat)
    (hpw : v.Pairwise (fun a b => a.subject ≠ b.subject))
    (hrank : ∀ a b, a ∈ v → b ∈ v → sfCert a = false → ischild a b = true →
      rank b < rank a) :
    ∃ H, buildHierarchy v = (Except.ok H, []) := by
  obtain ⟨h0, H, -, -, hb⟩ := buildHierarchy_total v rank hpw hrank
  exact ⟨H, hb⟩

/-- C3 amended witness: the chain `[leafC, rootCA]` satisfies both
hypotheses (rank = subject name) and builds without throwing. -/
theorem C3_amended_no_throw_witness :
    ∃ H, buildHierarchy [leafC, rootCA] = (Except.ok H, []) :=
  C3_amended_no_throw [leafC, rootCA] (fun c => c.subject)
    (by decide)
    (by
      intro a b ha hb hsf hch
      fin_cases ha <;> fin_cases hb <;> revert hsf hch <;> decide)

/-! ### C1 (amended) -/

/-- C1 (amended): `build_hierarchy` is insertion-order-independent
provided the input certificates have pairwise distinct subject names and
the issuer relation on the input is acyclic: any two permutations of the
input build successfully, with the same set of roots and the same
parent-child relation on certificates.  (The counterexample
`C1_counterexample` shows the subject-distinctness hypothesis is needed:
with two certificates sharing a subject name the edge set depends on the
order.) -/
theorem C1_amended_order_independent (v1 v2 : List Cert) (rank : Cert → Nat)
    (hperm : v1.Perm v2)
    (hpw : v1.Pairwise (fun a b => a.subject ≠ b.subject))
    (hrank : ∀ a b, a ∈ v1 → b ∈ v1 → sfCert a = false → ischild a b = true →
      rank b < rank a) :
    ∃ H1 H2, buildHierarchy v1 = (Except.ok H1, []) ∧
      buildHierarchy v2 = (Except.ok H2, []) ∧
      (∀ a, a ∈ rootCerts H1 ↔ a ∈ rootCerts H2) ∧
      (∀ e : Cert × Cert, e ∈ forestEdges H1 ↔ e ∈ forestEdges H2) := by
  have hpw2 : v2.Pairwise (fun a b => a.subject ≠ b.subject) :=
    (hperm.pairwise_iff (fun h => h.symm)).1 hpw
  have hrank2 : ∀ a b, a ∈ v2 → b ∈ v2 → sfCert a = false → ischild a b = true →
      rank b < rank a :=
    fun a b ha hb => hrank a b (hperm.mem_iff.2 ha) (hperm.mem_iff.2 hb)
  obtain ⟨H1, hb1, hroot1, hedge1⟩ := buildHierarchy_canonical v1 rank hpw hrank
  obtain ⟨H2, hb2, hroot2, hedge2⟩ := buildHierarchy_canonical v2 rank hpw2 hrank2
  refine ⟨H1, H2, hb1, hb2, ?_, ?_⟩
  · intro a
    rw [hroot1 a, hroot2 a]
    constructor
    · rintro ⟨hav, hc⟩
      refine ⟨hperm.mem_iff.1 hav, ?_⟩
      rcases hc with h | h
      · exact Or.inl h
      · exact Or.inr (fun p hp => h p (hperm.mem_iff.2 hp))
    · rintro ⟨hav, hc⟩
      refine ⟨hperm.mem_iff.2 hav, ?_⟩
      rcases hc with h | h
      · exact Or.inl h
      · exact Or.inr (fun p hp => h p (hperm.mem_iff.1 hp))
  · intro e
    rw [hedge1 e, hedge2 e]
    constructor
    · rintro ⟨h1, h2, h3, h4⟩
      exact ⟨hperm.mem_iff.1 h1, hperm.mem_iff.1 h2, h3, h4⟩
    · rintro ⟨h1, h2, h3, h4⟩
      exact ⟨hperm.mem_iff.2 h1, hperm.mem_iff.2 h2, h3, h4⟩

/-- C1 amended witness: the two orders of the chain `{leafC, rootCA}`
both build, with the same roots and edges. -/
theorem C1_amended_order_independent_witness :
    ∃ H1 H2, buildHierarchy [leafC, rootCA] = (Except.ok H1, []) ∧
      buildHierarchy [rootCA, leafC] = (Except.ok H2, []) ∧
      (∀ a, a ∈ rootCerts H1 ↔ a ∈ rootCerts H2) ∧
      (∀ e : Cert × Cert, e ∈ forestEdges H1 ↔ e ∈ forestEdges H2) :=
  C1_amended_order_independent [leafC, rootCA] [rootCA, leafC] (fun c => c.subject)
    (by decide)
    (by decide)
    (by
      intro a b ha hb hsf hch
      fin_cases ha <;> fin_cases hb <;> revert hsf hch <;> decide)

end EvseSecurity
